import Mathlib

/-!
Verification of the delta-radix fixed-width arithmetic engine.

This file shallowly embeds the `FlexInt` arbitrary-width two's-complement
integer type from `src/flex-int/src` (struct in `lib.rs`, operations in
`binary_op.rs`, `op.rs`, `from_string.rs`, `to_string.rs`) together with the
expression parser (`src/delta-radix-os/src/calc/backend/parse.rs`) and
evaluator (`src/delta-radix-os/src/calc/eval.rs`), and proves the spec's
claims about them.

Modelling conventions:
- `FlexInt.bits` is a `List Bool`, least-significant bit first, exactly as in
  the Rust struct.
- Rust machine integers used by the algorithms (`u8` digit cells, `u64`
  literal inputs, `usize` counters) are modelled as `Nat`; each reachable use
  stays far below the wrap-around bound, so the translation is exact there.
- Rust panics (`validate_size` mismatches, out-of-bounds indexing, `expect`)
  have no Lean counterpart; the corresponding branches return harmless
  default values and every theorem carries the size hypotheses that make
  the panicking branches unreachable in the source.
- Rust `Option` maps to `Option`, `Result` to `Except`.
-/

namespace DeltaRadix

/-- The `FlexInt` struct from `flex-int/src/lib.rs`: an arbitrary-precision
integer stored as a sequence of bits, least-significant first. -/
structure FlexInt where
  bits : List Bool
deriving DecidableEq, Repr

namespace FlexInt

/-- `FlexInt::new`: a zeroed integer of `size` bits. -/
def new (size : Nat) : FlexInt := ⟨List.replicate size false⟩

/-- `FlexInt::new_one`: only the least-significant bit is set.
(Source builds `new(size)` and sets bit 0; setting bit 0 of an empty vector
panics in Rust, here `List.set` leaves the empty list unchanged.) -/
def new_one (size : Nat) : FlexInt := ⟨(List.replicate size false).set 0 true⟩

/-- `FlexInt::from_bits`. -/
def from_bits (bs : List Bool) : FlexInt := ⟨bs⟩

/-- `FlexInt::from_int`: the `size` least-significant bits of `value`.
The Rust argument is a `u64`; `Nat.testBit` agrees with the source's
mask loop on every representable input. -/
def from_int (value : Nat) (size : Nat) : FlexInt :=
  ⟨(List.range size).map (fun i => value.testBit i)⟩

/-- `FlexInt::size`. -/
def size (x : FlexInt) : Nat := x.bits.length

/-- `FlexInt::bit` (out-of-range access panics in Rust; defaulted here). -/
def bit (x : FlexInt) (index : Nat) : Bool := x.bits.getD index false

/-- `FlexInt::is_zero`. -/
def is_zero (x : FlexInt) : Bool := x.bits.all (fun b => !b)

/-- `FlexInt::is_negative`: the most-significant bit
(`self.bit(self.size() - 1)`; panics on an empty vector in Rust). -/
def is_negative (x : FlexInt) : Bool := x.bits.getD (x.bits.length - 1) false

/-- `FlexInt::is_largest_possible_negative`: most-significant bit set and
no others. -/
def is_largest_possible_negative (x : FlexInt) : Bool :=
  x.is_negative && (x.bits.take (x.bits.length - 1)).all (fun b => !b)

/-- `FlexInt::invert`: flip every bit. -/
def invert (x : FlexInt) : FlexInt := ⟨x.bits.map (fun b => !b)⟩

/-- `FlexInt::sign_extend` (panics in Rust when shrinking; here the
replicate count is then zero, leaving the number unchanged). -/
def sign_extend (x : FlexInt) (new_size : Nat) : FlexInt :=
  ⟨x.bits ++ List.replicate (new_size - x.bits.length) (x.bits.getLastD false)⟩

/-- `FlexInt::zero_extend`. -/
def zero_extend (x : FlexInt) (new_size : Nat) : FlexInt :=
  ⟨x.bits ++ List.replicate (new_size - x.bits.length) false⟩

/-- `FlexInt::extend`. -/
def extend (x : FlexInt) (new_size : Nat) (signed : Bool) : FlexInt :=
  if signed then x.sign_extend new_size else x.zero_extend new_size

/-- `FlexInt::shrink`: drop most-significant bits down to `new_size`,
returning the shrunk number plus the counts of dropped zero and one bits. -/
def shrink (x : FlexInt) (new_size : Nat) : FlexInt × Nat × Nat :=
  ⟨⟨x.bits.take new_size⟩,
   (x.bits.drop new_size).count false,
   (x.bits.drop new_size).count true⟩

/-- The ripple-carry loop of `FlexInt::add` (`binary_op.rs`): one full-adder
per bit position, least-significant first, returning the sum bits and the
final carry-out.  The source iterates `i in 0..self.size()` reading
`other.bit(i)`; a length mismatch panics in Rust (`validate_size`) and is
mapped to a truncating default here. -/
def addBits : List Bool → List Bool → Bool → List Bool × Bool
  | [], _, carry => ([], carry)
  | _ :: _, [], carry => ([], carry)
  | a :: as_, b :: bs, carry =>
    let set_count : Nat :=
      (if a then 1 else 0) + (if b then 1 else 0) + (if carry then 1 else 0)
    let step : Bool × Bool :=
      match set_count with
      | 0 => (false, false)
      | 1 => (true, false)
      | 2 => (false, true)
      | _ => (true, true)
    let rest := addBits as_ bs step.2
    (step.1 :: rest.1, rest.2)

/-- `FlexInt::add` from `binary_op.rs`: ripple-carry addition; the overflow
flag is the carry-out when unsigned, and the sign-transition rule
(branching on the sign of `other`) when signed. -/
def add (x other : FlexInt) (signed : Bool) : FlexInt × Bool :=
  let r := addBits x.bits other.bits false
  let result : FlexInt := ⟨r.1⟩
  let carry := r.2
  let started_negative := x.is_negative
  let ended_negative := result.is_negative
  (result,
    if signed then
      if other.is_negative then
        started_negative && !ended_negative
      else
        !started_negative && ended_negative
    else carry)

/-- `FlexInt::negate` from `op.rs`: two's-complement negation; `none` for
the largest possible negative, with zero special-cased before the general
invert-then-add-one path.  The source panics if the final add reports
carry-out (proved unreachable below); that branch is mapped to `none`. -/
def negate (x : FlexInt) : Option FlexInt :=
  if x.is_largest_possible_negative then none
  else if x.is_zero then some x
  else
    let r := (x.invert).add (new_one x.size) false
    if r.2 then none else some r.1

/-- `FlexInt::abs` from `op.rs`. -/
def abs (x : FlexInt) : Option FlexInt :=
  if x.is_negative then x.negate else some x

/-- The borrow-propagating loop of `FlexInt::subtract_unsigned`: the source
applies `half_sub` at bit 0 and `full_sub` afterwards, which coincides with
running the full subtractor with an initial borrow of `false`. -/
def subBits : List Bool → List Bool → Bool → List Bool × Bool
  | [], _, borrow => ([], borrow)
  | _ :: _, [], borrow => ([], borrow)
  | a :: as_, b :: bs, borrow =>
    let diff1 := a.xor b
    let borrow1 := !a && b
    let diff := diff1.xor borrow
    let borrow2 := !diff1 && borrow
    let rest := subBits as_ bs (borrow1 || borrow2)
    (diff :: rest.1, rest.2)

/-- `FlexInt::subtract_unsigned` from `binary_op.rs`. -/
def subtract_unsigned (x other : FlexInt) : FlexInt × Bool :=
  let r := subBits x.bits other.bits false
  (⟨r.1⟩, r.2)

/-- `FlexInt::subtract_signed` from `binary_op.rs`: negate-and-add, with a
two-step fallback when `other` is the minimal negative (whose negation does
not fit).  The fallback's `negate().unwrap()` panics in Rust if negation
fails there; that branch returns a recognisable default here and is proved
unreachable. -/
def subtract_signed (x other : FlexInt) : FlexInt × Bool :=
  match other.negate with
  | some negated => x.add negated true
  | none =>
    let other_plus_one := (other.add (new_one x.size) true).1
    match other_plus_one.negate with
    | none => (⟨[]⟩, true)
    | some neg_ope =>
      let r1 := x.add neg_ope true
      let r2 := r1.1.add (from_int 1 x.size) true
      (r2.1, r1.2 || r2.2)

/-- `FlexInt::subtract` from `binary_op.rs`. -/
def subtract (x other : FlexInt) (signed : Bool) : FlexInt × Bool :=
  if signed then x.subtract_signed other else x.subtract_unsigned other

/-- `FlexInt::pop_shift_left` from `op.rs`: repeatedly insert a `false` at
the least-significant end and pop the most-significant bit, collecting the
popped bits in iteration order. -/
def pop_shift_left (x : FlexInt) (amount : Nat) : FlexInt × List Bool :=
  match amount with
  | 0 => (x, [])
  | n + 1 =>
    let widened := false :: x.bits
    let popped := widened.getLastD false
    let r := pop_shift_left ⟨widened.dropLast⟩ n
    (r.1, popped :: r.2)

/-- `FlexInt::unchecked_shift_left` from `op.rs`. -/
def unchecked_shift_left (x : FlexInt) (amount : Nat) : FlexInt :=
  (x.pop_shift_left amount).1

/-- The shift-and-add loop of `FlexInt::multiply`: for each set bit `i` of
the extended multiplier, add the extended multiplicand shifted left by `i`
into the accumulator, OR-ing the adds' carries into `overflow` only in the
unsigned case. -/
def mulLoop (a_ext : FlexInt) (signed : Bool) :
    List Bool → Nat → FlexInt → Bool → FlexInt × Bool
  | [], _, acc, overflow => (acc, overflow)
  | b :: bs, i, acc, overflow =>
    if b then
      let r := acc.add (a_ext.unchecked_shift_left i) false
      mulLoop a_ext signed bs (i + 1) r.1 (overflow || (r.2 && !signed))
    else
      mulLoop a_ext signed bs (i + 1) acc overflow

/-- `FlexInt::multiply` from `binary_op.rs`: extend both operands to twice
the width, shift-and-add, shrink back, and derive overflow from the dropped
bit counts (plus the result-sign cross-check in the signed case). -/
def multiply (x other : FlexInt) (signed : Bool) : FlexInt × Bool :=
  let a_ext := x.extend (x.size * 2) signed
  let b_ext := other.extend (x.size * 2) signed
  let loop := mulLoop a_ext signed b_ext.bits 0 (new (x.size * 2)) false
  let shr := loop.1.shrink x.size
  let result := shr.1
  let cut_zeroes := shr.2.1
  let cut_ones := shr.2.2
  let overflow :=
    if signed then
      let o1 := loop.2 || (decide (cut_zeroes > 0) && decide (cut_ones > 0))
      let o2 := o1 || (decide (cut_ones > 0) && !result.is_negative)
      if !result.is_zero &&
          (result.is_negative != (x.is_negative.xor other.is_negative)) then
        true
      else o2
    else
      loop.2 || decide (cut_ones > 0)
  (result, overflow)

/-- `FlexInt::is_greater_than_unsigned` from `lib.rs`: compare bitwise from
most- to least-significant; the first mismatch decides. -/
def gtBitsMsbFirst : List (Bool × Bool) → Bool
  | [] => false
  | (a, b) :: rest =>
    if a && !b then true
    else if !a && b then false
    else gtBitsMsbFirst rest

/-- `FlexInt::is_greater_than_unsigned`. -/
def is_greater_than_unsigned (x other : FlexInt) : Bool :=
  gtBitsMsbFirst ((x.bits.zip other.bits).reverse)

/-- `FlexInt::equals`. -/
def equals (x other : FlexInt) : Bool := decide (x.bits = other.bits)

/-- The long-division loop of `FlexInt::divide`: iterate over the dividend's
bits from most- to least-significant (supplied here as an index/bit list in
that order), shifting each into the remainder and subtracting the divisor
whenever it fits.  The source panics if `subtract_unsigned` reports a
borrow (unreachable because the subtraction only runs when
`remainder >= b`); the borrow flag is ignored here accordingly. -/
def divLoop (b : FlexInt) :
    List (Nat × Bool) → FlexInt → FlexInt → FlexInt × FlexInt
  | [], quotient, remainder => (quotient, remainder)
  | (i, bitv) :: rest, quotient, remainder =>
    let remainder1 : FlexInt := ⟨(remainder.unchecked_shift_left 1).bits.set 0 bitv⟩
    if remainder1.is_greater_than_unsigned b || remainder1.equals b then
      let rem := (remainder1.subtract_unsigned b).1
      divLoop b rest ⟨quotient.bits.set i true⟩ rem
    else
      divLoop b rest quotient remainder1

/-- `FlexInt::divide` from `binary_op.rs`: ±1 divisors are special-cased,
division by zero returns a zeroed result with overflow set, and the general
path runs unsigned long division on sign-extended absolute values, fixing
the sign afterwards.  The `expect`s on `abs` during signed preparation
panic in Rust and are defaulted here (proved unreachable at the claimed
widths). -/
def divide (x other : FlexInt) (signed : Bool) : FlexInt × Bool :=
  let other_is_one :=
    if signed then decide (other.abs = some (new_one x.size))
    else decide (other = new_one x.size)
  if other_is_one then
    if other.is_negative then
      match x.negate with
      | some neg => (neg, false)
      | none => (new x.size, true)
    else (x, false)
  else
    let a := if signed then ((x.sign_extend (x.size + 1)).abs).getD ⟨[]⟩ else x
    let b := if signed then ((other.sign_extend (x.size + 1)).abs).getD ⟨[]⟩ else other
    let negate_result := if signed then x.is_negative.xor other.is_negative else false
    if other.is_zero then (new x.size, true)
    else
      let indexedBits := a.bits.enum.reverse
      let loop := divLoop b indexedBits (new a.size) (new a.size)
      let quotient := loop.1
      if signed then
        let sign := quotient.is_negative
        let shrunk := (quotient.shrink (quotient.size - 1)).1
        let overflow := sign != shrunk.is_negative
        if negate_result then
          match shrunk.negate with
          | some r => (r, overflow)
          | none => (shrunk, true)
        else (shrunk, overflow)
      else (quotient, false)

/-! ### String conversion (`to_string.rs`, `from_string.rs`) -/

/-- `char::from_digit(d, 10)` as used by `to_unsigned_decimal_string`. -/
def digitChar (d : Nat) : Char := Char.ofNat (48 + d)

/-- `char::to_digit(c, 10)` as used by `from_unsigned_decimal_string`. -/
def decDigit? (c : Char) : Option Nat :=
  if 48 ≤ c.toNat ∧ c.toNat ≤ 57 then some (c.toNat - 48) else none

/-- The per-position `for` loop of the digit-array `add` helper inside
`to_unsigned_decimal_string`: add `src` into the first `src.len()` cells of
`dst`, propagating a carry.  The `u8` cells are modelled as `Nat` (every
reachable value stays below 20); reading past `dst` panics in Rust and is
defaulted here.  Returns the updated cells and the final carry. -/
def addInto : List Nat → List Nat → Nat → List Nat × Nat
  | [], dst, carry => (dst, carry)
  | _ :: _, [], carry => ([], carry)
  | s :: src, d :: dst, carry =>
    let dividend := s + d + carry
    let rest := addInto src dst (dividend / 10)
    (dividend % 10 :: rest.1, rest.2)

/-- The trailing `while carry > 0` loop of the same helper.  The source
increments `oi` before indexing, so a surviving carry would land one cell
past the expected position (and past the array for a full-width addition,
a panic in Rust — defaulted reads/writes here); on the digit arrays the
algorithm actually produces, the carry is always zero (proved below).
`fuel` bounds the loop; an out-of-range read yields carry 0, so
`dst.length + 1` steps always suffice. -/
def carryLoop : Nat → List Nat → Nat → Nat → List Nat
  | 0, dst, _, _ => dst
  | fuel + 1, dst, oi, carry =>
    if carry = 0 then dst
    else
      let oi2 := oi + 1
      let dividend := dst.getD oi2 0 + carry
      carryLoop fuel (dst.set oi2 (dividend % 10)) oi2 (dividend / 10)

/-- The digit-array `add` helper of `to_unsigned_decimal_string`. -/
def addDigits (dst src : List Nat) : List Nat :=
  let r := addInto src dst 0
  carryLoop (dst.length + 1) r.1 src.length r.2

/-- The doubling loop of `to_unsigned_decimal_string`: process bits from
most- to least-significant, doubling the decimal digit array and adding one
when the bit is set. -/
def toDecLoop : List Bool → List Nat → List Nat
  | [], digits => digits
  | b :: rest, digits =>
    let doubled := addDigits digits digits
    toDecLoop rest (if b then addDigits doubled [1] else doubled)

/-- `FlexInt::to_unsigned_decimal_string` from `to_string.rs`, as a list of
characters: repeated doubling into a decimal digit array, then rendering
most-significant digit first with leading zeroes stripped (keeping "0"). -/
def to_unsigned_decimal_string (x : FlexInt) : List Char :=
  let digits := toDecLoop x.bits.reverse (List.replicate x.size 0)
  let rendered := (digits.reverse.dropWhile (fun d => d = 0)).map digitChar
  if rendered.isEmpty then ['0'] else rendered

/-- The accumulation loop of `FlexInt::from_unsigned_decimal_string`
(`from_string.rs`): multiply the running value by ten, convert the
character (rejecting non-digits), add it, OR-ing all overflow flags. -/
def fromDecLoop (size : Nat) : List Char → FlexInt → Bool → Option (FlexInt × Bool)
  | [], result, overflow => some (result, overflow)
  | c :: cs, result, overflow =>
    let m := result.multiply (from_int 10 size) false
    match decDigit? c with
    | none => none
    | some d =>
      let a := m.1.add (from_int d size) false
      fromDecLoop size cs a.1 ((overflow || m.2) || a.2)

/-- `FlexInt::from_unsigned_decimal_string` from `from_string.rs`. -/
def from_unsigned_decimal_string (s : List Char) (size : Nat) :
    Option (FlexInt × Bool) :=
  fromDecLoop size s (new size) false

/-- The hexadecimal digit table of `from_unsigned_hex_string`
(bits LSB → MSB). -/
def hexDigitBits? (c : Char) : Option (List Bool) :=
  match c with
  | '0' => some [false, false, false, false]
  | '1' => some [true,  false, false, false]
  | '2' => some [false, true,  false, false]
  | '3' => some [true,  true,  false, false]
  | '4' => some [false, false, true,  false]
  | '5' => some [true,  false, true,  false]
  | '6' => some [false, true,  true,  false]
  | '7' => some [true,  true,  true,  false]
  | '8' => some [false, false, false, true]
  | '9' => some [true,  false, false, true]
  | 'A' | 'a' => some [false, true,  false, true]
  | 'B' | 'b' => some [true,  true,  false, true]
  | 'C' | 'c' => some [false, false, true,  true]
  | 'D' | 'd' => some [true,  false, true,  true]
  | 'E' | 'e' => some [false, true,  true,  true]
  | 'F' | 'f' => some [true,  true,  true,  true]
  | _ => none

/-- The accumulation loop of `FlexInt::from_unsigned_hex_string`: shift the
running value left by four (overflow if any shifted-out bit was set), then
splice the digit's four bits into the least-significant positions. -/
def fromHexLoop (size : Nat) : List Char → FlexInt → Bool → Option (FlexInt × Bool)
  | [], result, overflow => some (result, overflow)
  | c :: cs, result, overflow =>
    let ps := result.pop_shift_left 4
    let overflow2 := if ps.2.contains true then true else overflow
    match hexDigitBits? c with
    | none => none
    | some bits => fromHexLoop size cs ⟨bits ++ ps.1.bits.drop 4⟩ overflow2

/-- `FlexInt::from_unsigned_hex_string` from `from_string.rs`. -/
def from_unsigned_hex_string (s : List Char) (size : Nat) :
    Option (FlexInt × Bool) :=
  fromHexLoop size s (new size) false

/-- Modelled from the spec: `FlexInt::from_unsigned_binary_string` is
referenced by the parser's `NumberParser` implementation but its definition
is not among the provided sources; per the spec's description of the string
parsers it processes characters left to right, multiplies the running value
by the base (a one-bit shift, overflow if the shifted-out bit was set) and
adds the digit, rejecting other characters. -/
def fromBinLoop (size : Nat) : List Char → FlexInt → Bool → Option (FlexInt × Bool)
  | [], result, overflow => some (result, overflow)
  | c :: cs, result, overflow =>
    let ps := result.pop_shift_left 1
    let overflow2 := if ps.2.contains true then true else overflow
    match c with
    | '0' => fromBinLoop size cs ps.1 overflow2
    | '1' => fromBinLoop size cs ⟨ps.1.bits.set 0 true⟩ overflow2
    | _ => none

/-- Modelled from the spec: see `fromBinLoop`. -/
def from_unsigned_binary_string (s : List Char) (size : Nat) :
    Option (FlexInt × Bool) :=
  fromBinLoop size s (new size) false

/-- `FlexInt::from_signed_string` from `from_string.rs`: strip one optional
sign character, parse the magnitude with the supplied unsigned routine,
set the overflow flag if the magnitude's sign bit is set (unless the
minimal negative is being legitimately constructed with a minus sign), and
negate when a minus sign was present — note that when negation fails the
source REPLACES the flag with `!is_largest_possible_negative`. -/
def from_signed_string (s : List Char) (size : Nat)
    (unsigned_string_fn : List Char → Nat → Option (FlexInt × Bool)) :
    Option (FlexInt × Bool) :=
  let stripped : List Char × Bool :=
    match s with
    | '+' :: rest => (rest, false)
    | '-' :: rest => (rest, true)
    | _ => (s, false)
  match unsigned_string_fn stripped.1 size with
  | none => none
  | some (num, over) =>
    let over2 :=
      if num.is_negative && !(num.is_largest_possible_negative && stripped.2)
      then true else over
    if stripped.2 then
      match num.negate with
      | some negated => some (negated, over2)
      | none => some (num, !num.is_largest_possible_negative)
    else some (num, over2)

/-- `FlexInt::from_signed_decimal_string` from `from_string.rs`. -/
def from_signed_decimal_string (s : List Char) (size : Nat) :
    Option (FlexInt × Bool) :=
  from_signed_string s size from_unsigned_decimal_string

/-- `FlexInt::from_signed_hex_string` from `from_string.rs`. -/
def from_signed_hex_string (s : List Char) (size : Nat) :
    Option (FlexInt × Bool) :=
  from_signed_string s size from_unsigned_hex_string

/-- Modelled from the spec: signed binary parsing, referenced by the
parser's `NumberParser` implementation (see `fromBinLoop`); it reuses the
generic signed wrapper exactly like the decimal and hex variants. -/
def from_signed_binary_string (s : List Char) (size : Nat) :
    Option (FlexInt × Bool) :=
  from_signed_string s size from_unsigned_binary_string

end FlexInt

/-! ### Glyphs, parser and evaluator (`delta-radix-os`) -/

/-- `Glyph` from `delta-radix-hal/src/display.rs` (the `Digit` payload is a
`u8`, modelled as `Nat`). -/
inductive Glyph where
  | Digit (d : Nat)
  | Add
  | Subtract
  | Multiply
  | Divide
  | Align
  | LeftParen
  | RightParen
  | HexBase
  | BinaryBase
  | DecimalBase
  | Variable
deriving DecidableEq, Repr

/-- `Base` from `calc/frontend/mod.rs`. -/
inductive Base where
  | Decimal
  | Hexadecimal
  | Binary
deriving DecidableEq, Repr

/-- `Base::from_glyph` from `calc/frontend/mod.rs`. -/
def Base.from_glyph : Glyph → Option Base
  | Glyph.HexBase => some Base.Hexadecimal
  | Glyph.BinaryBase => some Base.Binary
  | Glyph.DecimalBase => some Base.Decimal
  | _ => none

/-- `DataType` from `calc/eval.rs`. -/
structure DataType where
  bits : Nat
  signed : Bool
deriving DecidableEq, Repr

/-- `Configuration` from `calc/eval.rs`. -/
structure Configuration where
  data_type : DataType
deriving DecidableEq, Repr

/-- `GlyphSpan` from `calc/backend/parse.rs`. -/
structure GlyphSpan where
  start : Nat
  length : Nat
deriving DecidableEq, Repr

/-- `GlyphSpan::end` (named `last` here since `end` is reserved). -/
def GlyphSpan.last (s : GlyphSpan) : Nat := s.start + s.length - 1

/-- `GlyphSpan::merge`. -/
def GlyphSpan.merge (s other : GlyphSpan) : GlyphSpan :=
  let new_start := min s.start other.start
  let new_end := max s.last other.last
  ⟨new_start, new_end - new_start + 1⟩

/-- `Node`/`NodeKind` from `calc/backend/parse.rs`, flattened into a single
inductive; each constructor carries the node's span. -/
inductive Node where
  | Number (span : GlyphSpan) (num : FlexInt)
  | Add (span : GlyphSpan) (a b : Node)
  | Subtract (span : GlyphSpan) (a b : Node)
  | Divide (span : GlyphSpan) (a b : Node)
  | Multiply (span : GlyphSpan) (a b : Node)
deriving DecidableEq, Repr

/-- The span of a node. -/
def Node.span : Node → GlyphSpan
  | Node.Number s _ => s
  | Node.Add s _ _ => s
  | Node.Subtract s _ _ => s
  | Node.Divide s _ _ => s
  | Node.Multiply s _ _ => s

/-- `ParserErrorKind` from `calc/backend/parse.rs`. -/
inductive ParserErrorKind where
  | DuplicateBase
  | InvalidNumber
  | UnexpectedGlyph (g : Glyph)
  | ExpectedParen
  | UnexpectedEnd
  | InvalidVariable
deriving DecidableEq, Repr

/-- `ParserError` from `calc/backend/parse.rs`. -/
structure ParserError where
  ptr : Nat
  kind : ParserErrorKind
deriving DecidableEq, Repr

/-- `EvaluationResult` from `calc/eval.rs`. -/
structure EvaluationResult where
  result : FlexInt
  overflow : Bool
deriving DecidableEq, Repr

/-- `evaluate` from `calc/eval.rs`: post-order walk; a number node carries
no overflow, a binary node dispatches on its kind with the configured
signedness and ORs the children's overflow with the operation's. -/
def evaluate (node : Node) (config : Configuration) : EvaluationResult :=
  match node with
  | Node.Number _ num => ⟨num, false⟩
  | Node.Add _ a b =>
    let ra := evaluate a config
    let rb := evaluate b config
    let r := ra.result.add rb.result config.data_type.signed
    ⟨r.1, ra.overflow || rb.overflow || r.2⟩
  | Node.Subtract _ a b =>
    let ra := evaluate a config
    let rb := evaluate b config
    let r := ra.result.subtract rb.result config.data_type.signed
    ⟨r.1, ra.overflow || rb.overflow || r.2⟩
  | Node.Multiply _ a b =>
    let ra := evaluate a config
    let rb := evaluate b config
    let r := ra.result.multiply rb.result config.data_type.signed
    ⟨r.1, ra.overflow || rb.overflow || r.2⟩
  | Node.Divide _ a b =>
    let ra := evaluate a config
    let rb := evaluate b config
    let r := ra.result.divide rb.result config.data_type.signed
    ⟨r.1, ra.overflow || rb.overflow || r.2⟩

/-- The `NumberParser` implementation on `FlexInt` from
`calc/backend/parse.rs`. -/
def numberParse (chars : List Char) (base : Base) (signed : Bool) (bits : Nat) :
    Option (FlexInt × Bool) :=
  match base with
  | Base.Decimal =>
    if signed then FlexInt.from_signed_decimal_string chars bits
    else FlexInt.from_unsigned_decimal_string chars bits
  | Base.Hexadecimal =>
    if signed then FlexInt.from_signed_hex_string chars bits
    else FlexInt.from_unsigned_hex_string chars bits
  | Base.Binary =>
    if signed then FlexInt.from_signed_binary_string chars bits
    else FlexInt.from_unsigned_binary_string chars bits

/-- The mutable fields of `Parser` (`ptr`, `constant_overflow_spans`,
`next_number_unary_negations`). -/
structure ParserState where
  ptr : Nat
  constant_overflow_spans : List GlyphSpan
  next_number_unary_negations : Nat
deriving DecidableEq, Repr

/-- The borrowed fields of `Parser` (`glyphs`, `variables`, `eval_config`).
The 16-slot `VariableArray` is modelled as a list of glyph sequences. -/
structure ParserContext where
  glyphs : List Glyph
  vars : List (List Glyph)
  eval_config : Configuration

/-- `char::from_digit(d as u32, 16)` as used when gathering digit glyphs
(lower-case hexadecimal digit characters). -/
def hexDigitChar (d : Nat) : Char :=
  if d < 10 then Char.ofNat (48 + d) else Char.ofNat (87 + d)

/-- The digit-gathering `while` loop of the number branch of
`Parser::parse_bottom`; `fuel` bounds the loop (any value larger than the
glyph count suffices). -/
def gatherDigits (glyphs : List Glyph) : Nat → Nat → List Char → List Char × Nat
  | 0, ptr, acc => (acc.reverse, ptr)
  | fuel + 1, ptr, acc =>
    match glyphs.get? ptr with
    | some (Glyph.Digit d) => gatherDigits glyphs fuel (ptr + 1) (hexDigitChar d :: acc)
    | _ => (acc.reverse, ptr)

/-- The number branch of `Parser::parse_bottom` (entered when the current
glyph `g` is a digit or base marker): optional leading base marker, digit
run, optional trailing base marker (`DuplicateBase` if both), pending unary
negations folded into the literal (parsing signed, and forcing overflow,
when the data type is unsigned), then conversion through the `FlexInt`
number parser, recording the span on overflow. -/
def parseNumber (ctx : ParserContext) (st : ParserState) (g : Glyph) :
    Except ParserError (Node × ParserState) :=
  let start0 := st.ptr
  let afterBase :=
    match Base.from_glyph g with
    | some b => (st.ptr + 1, some b)
    | none => (st.ptr, (none : Option Base))
  let gathered := gatherDigits ctx.glyphs (ctx.glyphs.length + 1) afterBase.1 []
  let digits := gathered.1
  let ptr2 := gathered.2
  let endBase :=
    match (ctx.glyphs.get? ptr2).bind Base.from_glyph with
    | some b =>
      match afterBase.2 with
      | some _ => none
      | none => some (ptr2 + 1, some b)
    | none => some (ptr2, afterBase.2)
  match endBase with
  | none => .error ⟨ptr2, ParserErrorKind.DuplicateBase⟩
  | some (ptr3, base) =>
    let negodd := st.next_number_unary_negations % 2 == 1
    let start := if negodd then start0 - st.next_number_unary_negations else start0
    let str := if negodd then '-' :: digits else digits
    let negations2 := if negodd then 0 else st.next_number_unary_negations
    let force_parse_signed := negodd && !ctx.eval_config.data_type.signed
    let parse_signed := ctx.eval_config.data_type.signed || force_parse_signed
    match numberParse str (base.getD Base.Decimal) parse_signed
        ctx.eval_config.data_type.bits with
    | none => .error ⟨ptr3, ParserErrorKind.InvalidNumber⟩
    | some (num, overflow0) =>
      let overflow := overflow0 || force_parse_signed
      let length := ptr3 - start
      let span : GlyphSpan := ⟨start, length⟩
      let spans := if overflow then st.constant_overflow_spans ++ [span]
                   else st.constant_overflow_spans
      .ok (Node.Number span num,
           ⟨ptr3, spans, negations2⟩)

mutual

/-- `Parser::parse` from `calc/backend/parse.rs`: empty input parses to a
zero-valued number node spanning zero glyphs; otherwise parse the top
level and require all glyphs consumed.  `fuel` is a termination device of
the embedding: every recursive call decreases it, and it is only consumed
on non-empty input. -/
def parseRun (ctx : ParserContext) : Nat → ParserState →
    Except ParserError (Node × ParserState)
  | fuel, st =>
    if ctx.glyphs.isEmpty then
      .ok (Node.Number ⟨0, 0⟩ (FlexInt.new ctx.eval_config.data_type.bits), st)
    else
      match fuel with
      | 0 => .error ⟨st.ptr, ParserErrorKind.UnexpectedEnd⟩
      | fuel + 1 =>
        match parseTopLevel ctx fuel st with
        | .error e => .error e
        | .ok (result, st2) =>
          match ctx.glyphs.get? st2.ptr with
          | some glyph => .error ⟨st2.ptr, ParserErrorKind.UnexpectedGlyph glyph⟩
          | none => .ok (result, st2)

/-- `Parser::parse_top_level`. -/
def parseTopLevel (ctx : ParserContext) : Nat → ParserState →
    Except ParserError (Node × ParserState)
  | 0, st => .error ⟨st.ptr, ParserErrorKind.UnexpectedEnd⟩
  | fuel + 1, st => parseAddSub ctx fuel st

/-- `Parser::parse_add_sub` (entry). -/
def parseAddSub (ctx : ParserContext) : Nat → ParserState →
    Except ParserError (Node × ParserState)
  | 0, st => .error ⟨st.ptr, ParserErrorKind.UnexpectedEnd⟩
  | fuel + 1, st =>
    match parseMulDiv ctx fuel st with
    | .error e => .error e
    | .ok (current, st2) => parseAddSubLoop ctx fuel current st2

/-- The `while` loop of `Parser::parse_add_sub`. -/
def parseAddSubLoop (ctx : ParserContext) : Nat → Node → ParserState →
    Except ParserError (Node × ParserState)
  | 0, _, st => .error ⟨st.ptr, ParserErrorKind.UnexpectedEnd⟩
  | fuel + 1, current, st =>
    match ctx.glyphs.get? st.ptr with
    | some Glyph.Add =>
      match parseMulDiv ctx fuel { st with ptr := st.ptr + 1 } with
      | .error e => .error e
      | .ok (rhs, st2) =>
        parseAddSubLoop ctx fuel
          (Node.Add (current.span.merge rhs.span) current rhs) st2
    | some Glyph.Subtract =>
      match parseMulDiv ctx fuel { st with ptr := st.ptr + 1 } with
      | .error e => .error e
      | .ok (rhs, st2) =>
        parseAddSubLoop ctx fuel
          (Node.Subtract (current.span.merge rhs.span) current rhs) st2
    | _ => .ok (current, st)

/-- `Parser::parse_mul_div` (entry). -/
def parseMulDiv (ctx : ParserContext) : Nat → ParserState →
    Except ParserError (Node × ParserState)
  | 0, st => .error ⟨st.ptr, ParserErrorKind.UnexpectedEnd⟩
  | fuel + 1, st =>
    match parseBottom ctx fuel st with
    | .error e => .error e
    | .ok (current, st2) => parseMulDivLoop ctx fuel current st2

/-- The `while` loop of `Parser::parse_mul_div`. -/
def parseMulDivLoop (ctx : ParserContext) : Nat → Node → ParserState →
    Except ParserError (Node × ParserState)
  | 0, _, st => .error ⟨st.ptr, ParserErrorKind.UnexpectedEnd⟩
  | fuel + 1, current, st =>
    match ctx.glyphs.get? st.ptr with
    | some Glyph.Multiply =>
      match parseBottom ctx fuel { st with ptr := st.ptr + 1 } with
      | .error e => .error e
      | .ok (rhs, st2) =>
        parseMulDivLoop ctx fuel
          (Node.Multiply (current.span.merge rhs.span) current rhs) st2
    | some Glyph.Divide =>
      match parseBottom ctx fuel { st with ptr := st.ptr + 1 } with
      | .error e => .error e
      | .ok (rhs, st2) =>
        parseMulDivLoop ctx fuel
          (Node.Divide (current.span.merge rhs.span) current rhs) st2
    | _ => .ok (current, st)

/-- `Parser::parse_bottom`: unary negation, parentheses, variable
references (re-parsing the stored glyph sequence with a fresh parser) and
numbers. -/
def parseBottom (ctx : ParserContext) : Nat → ParserState →
    Except ParserError (Node × ParserState)
  | 0, st => .error ⟨st.ptr, ParserErrorKind.UnexpectedEnd⟩
  | fuel + 1, st =>
    match ctx.glyphs.get? st.ptr with
    | some Glyph.Subtract =>
      parseBottom ctx fuel
        { st with
          ptr := st.ptr + 1
          next_number_unary_negations := st.next_number_unary_negations + 1 }
    | some Glyph.LeftParen =>
      match parseTopLevel ctx fuel { st with ptr := st.ptr + 1 } with
      | .error e => .error e
      | .ok (node, st2) =>
        match ctx.glyphs.get? st2.ptr with
        | some Glyph.RightParen => .ok (node, { st2 with ptr := st2.ptr + 1 })
        | _ => .error ⟨st2.ptr, ParserErrorKind.ExpectedParen⟩
    | some Glyph.Variable =>
      let ptr1 := st.ptr + 1
      match ctx.glyphs.get? ptr1 with
      | some (Glyph.Digit d) =>
        if d < ctx.vars.length then
          let ptr2 := ptr1 + 1
          match parseRun { ctx with glyphs := ctx.vars.getD d [] } fuel
              ⟨0, [], 0⟩ with
          | .error e => .error e
          | .ok (variable_node, vst) =>
            let spans :=
              if !vst.constant_overflow_spans.isEmpty then
                st.constant_overflow_spans ++ [⟨ptr2 - 2, 2⟩]
              else st.constant_overflow_spans
            .ok (variable_node,
                 { st with ptr := ptr2, constant_overflow_spans := spans })
        else .error ⟨ptr1, ParserErrorKind.InvalidVariable⟩
      | _ => .error ⟨ptr1, ParserErrorKind.InvalidVariable⟩
    | some g =>
      match g with
      | Glyph.Digit _ | Glyph.HexBase | Glyph.BinaryBase | Glyph.DecimalBase =>
        parseNumber ctx st g
      | _ => .error ⟨st.ptr, ParserErrorKind.UnexpectedGlyph g⟩
    | none => .error ⟨st.ptr, ParserErrorKind.UnexpectedEnd⟩

end

/-- `Parser::new` followed by `Parser::parse`: run the parser from the
initial state.  The fuel budget is an embedding artifact; it is generous
enough for every input whose (variable-expanded) parse terminates within
the budget, and is not consulted at all for empty input. -/
def parseGlyphs (glyphs : List Glyph) (vars : List (List Glyph))
    (cfg : Configuration) : Except ParserError Node :=
  (parseRun ⟨glyphs, vars, cfg⟩
      ((glyphs.length + (vars.map List.length).sum + 2) * 8)
      ⟨0, [], 0⟩).map Prod.fst

namespace FlexInt

/-! ## Value semantics

`bitsToNat` interprets an LSB-first bit list as an unsigned number; `toInt`
is the two's-complement reading used by the signed operations. -/

/-- Unsigned value of an LSB-first bit list. -/
def bitsToNat : List Bool → Nat
  | [] => 0
  | b :: bs => b.toNat + 2 * bitsToNat bs

/-- Unsigned value of a `FlexInt`. -/
def toNat (x : FlexInt) : Nat := bitsToNat x.bits

/-- Two's-complement (signed) value of a `FlexInt`. -/
def toInt (x : FlexInt) : Int :=
  if x.is_negative then (x.toNat : Int) - 2 ^ x.size else (x.toNat : Int)

/-- Value of a most-significant-first bit list (specification helper). -/
def bitsValMsb : List Bool → Nat
  | [] => 0
  | b :: rest => b.toNat * 2 ^ rest.length + bitsValMsb rest

/-- Value of a most-significant-first decimal digit list (specification
helper). -/
def decValMsb : List Nat → Nat
  | [] => 0
  | d :: rest => d * 10 ^ rest.length + decValMsb rest

theorem bitsToNat_lt : ∀ bs : List Bool, bitsToNat bs < 2 ^ bs.length
  | [] => by simp [bitsToNat]
  | b :: bs => by
    have ih := bitsToNat_lt bs
    cases b <;> simp [bitsToNat, List.length_cons, pow_succ] <;> omega

theorem bitsToNat_inj : ∀ {bs cs : List Bool}, bs.length = cs.length →
    bitsToNat bs = bitsToNat cs → bs = cs
  | [], [], _, _ => rfl
  | [], _ :: _, hl, _ => by simp at hl
  | _ :: _, [], hl, _ => by simp at hl
  | b :: bs, c :: cs, hl, hv => by
    have hl' : bs.length = cs.length := by simpa using hl
    have hb : b = c := by
      by_contra hne
      cases b <;> cases c <;> simp_all [bitsToNat] <;> omega
    subst hb
    have hv' : bitsToNat bs = bitsToNat cs := by
      cases b <;> simp [bitsToNat] at hv <;> omega
    rw [bitsToNat_inj hl' hv']

theorem toNat_inj {x y : FlexInt} (hl : x.size = y.size) (hv : x.toNat = y.toNat) :
    x = y := by
  cases x; cases y
  simpa using bitsToNat_inj hl hv

theorem toNat_lt (x : FlexInt) : x.toNat < 2 ^ x.size := bitsToNat_lt x.bits

theorem ne_nil_of_size (x : FlexInt) (h : 1 ≤ x.size) : x.bits ≠ [] :=
  List.ne_nil_of_length_pos h

/-- The most-significant bit is set exactly when the unsigned value reaches
`2 ^ (w - 1)`. -/
theorem msb_eq_decide : ∀ bs : List Bool, bs ≠ [] →
    bs.getD (bs.length - 1) false = decide (2 ^ (bs.length - 1) ≤ bitsToNat bs)
  | [], h => absurd rfl h
  | [b], _ => by cases b <;> simp [bitsToNat]
  | b :: c :: bs, _ => by
    have ih := msb_eq_decide (c :: bs) (by simp)
    have hlt := bitsToNat_lt (c :: bs)
    have hval : bitsToNat (b :: c :: bs) = b.toNat + 2 * bitsToNat (c :: bs) := rfl
    simp only [List.length_cons, Nat.add_sub_cancel, List.getD_cons_succ] at ih hlt ⊢
    rw [ih, hval, decide_eq_decide]
    have hpow : (2 : Nat) ^ (bs.length + 1) = 2 ^ bs.length * 2 := pow_succ 2 bs.length
    rw [hpow] at hlt ⊢
    cases b <;> simp [Bool.toNat] <;> omega

theorem is_negative_eq_decide (x : FlexInt) (h : x.bits ≠ []) :
    x.is_negative = decide (2 ^ (x.size - 1) ≤ x.toNat) :=
  msb_eq_decide x.bits h

/-- The full-adder unfolding of a `addBits` step. -/
theorem addBits_cons (x y c : Bool) (xs ys : List Bool) :
    addBits (x :: xs) (y :: ys) c =
      ((x.xor y).xor c :: (addBits xs ys ((x && y) || (x && c) || (y && c))).1,
       (addBits xs ys ((x && y) || (x && c) || (y && c))).2) := by
  cases x <;> cases y <;> cases c <;> rfl

/-- Core ripple-carry identity: the sum bits plus the weighted carry-out
recover the exact sum of operands and carry-in. -/
theorem addBits_spec : ∀ {a b : List Bool} (c : Bool), a.length = b.length →
    (addBits a b c).1.length = a.length ∧
    bitsToNat (addBits a b c).1 + 2 ^ a.length * (addBits a b c).2.toNat
      = bitsToNat a + bitsToNat b + c.toNat
  | [], [], c, _ => by simp [addBits, bitsToNat]
  | [], _ :: _, _, h => by simp at h
  | _ :: _, [], _, h => by simp at h
  | x :: xs, y :: ys, c, h => by
    have h' : xs.length = ys.length := by simpa using h
    rw [addBits_cons]
    obtain ⟨ih1, ih2⟩ := addBits_spec (a := xs) (b := ys) ((x && y) || (x && c) || (y && c)) h'
    refine ⟨by simpa using ih1, ?_⟩
    have hpow : (2 : Nat) ^ (x :: xs).length = 2 ^ xs.length * 2 := pow_succ 2 xs.length
    rw [hpow]
    rcases hcarry : (addBits xs ys ((x && y) || (x && c) || (y && c))).2 <;>
      rw [hcarry] at ih2 <;>
      cases x <;> cases y <;> cases c <;>
      simp [bitsToNat, Bool.toNat] at ih2 ⊢ <;> omega

theorem add_fst_eq (x y : FlexInt) (sg : Bool) :
    (x.add y sg).1 = (x.add y false).1 := rfl

theorem add_fst_size (x y : FlexInt) (sg : Bool) (h : x.size = y.size) :
    (x.add y sg).1.size = x.size :=
  (addBits_spec false h).1

theorem add_fst_toNat (x y : FlexInt) (sg : Bool) (h : x.size = y.size) :
    (x.add y sg).1.toNat = (x.toNat + y.toNat) % 2 ^ x.size := by
  obtain ⟨h1, h2⟩ := addBits_spec (a := x.bits) (b := y.bits) false h
  have hlt := bitsToNat_lt (addBits x.bits y.bits false).1
  rw [h1] at hlt
  show bitsToNat (addBits x.bits y.bits false).1
      = (bitsToNat x.bits + bitsToNat y.bits) % 2 ^ x.bits.length
  rcases hc : (addBits x.bits y.bits false).2 <;> rw [hc] at h2 <;>
    simp only [Bool.toNat_false, Bool.toNat_true, Nat.mul_zero, Nat.mul_one,
      Nat.add_zero] at h2
  · rw [Nat.mod_eq_of_lt (by omega)]; omega
  · have hs : bitsToNat x.bits + bitsToNat y.bits
        = bitsToNat (addBits x.bits y.bits false).1 + 2 ^ x.bits.length := by omega
    rw [hs, Nat.add_mod_right, Nat.mod_eq_of_lt hlt]

theorem add_snd_unsigned (x y : FlexInt) (h : x.size = y.size) :
    (x.add y false).2 = decide (2 ^ x.size ≤ x.toNat + y.toNat) := by
  obtain ⟨h1, h2⟩ := addBits_spec (a := x.bits) (b := y.bits) false h
  have hlt := bitsToNat_lt (addBits x.bits y.bits false).1
  rw [h1] at hlt
  show (addBits x.bits y.bits false).2
      = decide (2 ^ x.bits.length ≤ bitsToNat x.bits + bitsToNat y.bits)
  rcases hc : (addBits x.bits y.bits false).2 <;> rw [hc] at h2 <;>
    simp only [Bool.toNat_false, Bool.toNat_true, Nat.mul_zero, Nat.mul_one,
      Nat.add_zero] at h2
  · symm; rw [decide_eq_false_iff_not]; omega
  · symm; rw [decide_eq_true_eq]; omega

/-! ## Claims C1 and C2: addition -/

/-- C1: for widths w ≥ 3 and same-width operands, `add` with `signed = false`
returns the bit vector of `(a + b) mod 2^w`, and its overflow flag is the
ripple-carry carry-out, set exactly when `a + b ≥ 2^w` unsigned. -/
theorem claim_C1_add_unsigned_modular (w : Nat) (hw : 3 ≤ w) (a b : FlexInt)
    (ha : a.size = w) (hb : b.size = w) :
    (a.add b false).1.toNat = (a.toNat + b.toNat) % 2 ^ w ∧
    (a.add b false).1.size = w ∧
    (a.add b false).2 = decide (2 ^ w ≤ a.toNat + b.toNat) := by
  have h : a.size = b.size := by rw [ha, hb]
  refine ⟨?_, ?_, ?_⟩
  · rw [add_fst_toNat a b false h, ha]
  · rw [add_fst_size a b false h, ha]
  · rw [add_snd_unsigned a b h, ha]

/-- Witness for C1 at w = 3 with a = 6, b = 5 (an overflowing pair). -/
theorem claim_C1_add_unsigned_modular_witness :
    ((from_int 6 3).add (from_int 5 3) false).1.toNat
      = ((from_int 6 3).toNat + (from_int 5 3).toNat) % 2 ^ 3 ∧
    ((from_int 6 3).add (from_int 5 3) false).1.size = 3 ∧
    ((from_int 6 3).add (from_int 5 3) false).2
      = decide (2 ^ 3 ≤ (from_int 6 3).toNat + (from_int 5 3).toNat) :=
  claim_C1_add_unsigned_modular 3 (by decide) (from_int 6 3) (from_int 5 3)
    (by decide) (by decide)

/-- C2: the signed-add overflow flag is set exactly when both operands are
negative and the result is not, or both are non-negative and the result is
negative; mixed-sign operands never report overflow. -/
theorem claim_C2_add_signed_overflow_rule (a b : FlexInt) (h : a.size = b.size) :
    (a.add b true).2 =
      ((a.is_negative && b.is_negative && !(a.add b true).1.is_negative) ||
       (!a.is_negative && !b.is_negative && (a.add b true).1.is_negative)) := by
  have key : ∀ (xn yn rn : Bool),
      (if yn then xn && !rn else !xn && rn)
        = (xn && yn && !rn || (!xn && !yn && rn)) := by decide
  show (if b.is_negative then a.is_negative && !(a.add b true).1.is_negative
        else !a.is_negative && (a.add b true).1.is_negative) = _
  exact key _ _ _

/-- Witness for C2 at w = 4 with a = 6, b = 3 (signed overflow: 6 + 3 = 9
does not fit in 4 signed bits). -/
theorem claim_C2_add_signed_overflow_rule_witness :
    ((from_int 6 4).add (from_int 3 4) true).2 =
      (((from_int 6 4).is_negative && (from_int 3 4).is_negative &&
          !((from_int 6 4).add (from_int 3 4) true).1.is_negative) ||
       (!(from_int 6 4).is_negative && !(from_int 3 4).is_negative &&
          ((from_int 6 4).add (from_int 3 4) true).1.is_negative)) :=
  claim_C2_add_signed_overflow_rule (from_int 6 4) (from_int 3 4) (by decide)

/-! ## Values of the basic constructions -/

theorem bitsToNat_replicate_false : ∀ n, bitsToNat (List.replicate n false) = 0
  | 0 => rfl
  | n + 1 => by
    simpa [List.replicate, bitsToNat] using bitsToNat_replicate_false n

theorem new_size (w : Nat) : (new w).size = w := by simp [new, size]

theorem new_toNat (w : Nat) : (new w).toNat = 0 := bitsToNat_replicate_false w

theorem new_one_eq (w : Nat) (h : 1 ≤ w) :
    new_one w = ⟨true :: List.replicate (w - 1) false⟩ := by
  cases w with
  | zero => omega
  | succ n => rfl

theorem new_one_size (w : Nat) : (new_one w).size = w := by
  cases w <;> simp [new_one, size]

theorem new_one_toNat (w : Nat) (h : 1 ≤ w) : (new_one w).toNat = 1 := by
  rw [new_one_eq w h]
  simp [toNat, bitsToNat, bitsToNat_replicate_false]

theorem mod_two_pow_succ (v n : Nat) :
    v % 2 ^ (n + 1) = v % 2 + 2 * (v / 2 % 2 ^ n) := by
  have h1 : v = 2 ^ (n + 1) * (v / 2 / 2 ^ n) + (v % 2 + 2 * (v / 2 % 2 ^ n)) := by
    conv_lhs => rw [← Nat.div_add_mod v 2, ← Nat.div_add_mod (v / 2) (2 ^ n)]
    ring
  have ha : v % 2 < 2 := Nat.mod_lt _ (by norm_num)
  have hb : v / 2 % 2 ^ n < 2 ^ n := Nat.mod_lt _ (Nat.two_pow_pos n)
  have h2 : v % 2 + 2 * (v / 2 % 2 ^ n) < 2 ^ (n + 1) := by
    rw [pow_succ]; omega
  conv_lhs => rw [h1]
  rw [Nat.mul_add_mod, Nat.mod_eq_of_lt h2]

theorem from_int_size (v s : Nat) : (from_int v s).size = s := by
  simp [from_int, size]

theorem from_int_toNat : ∀ (s v : Nat), (from_int v s).toNat = v % 2 ^ s
  | 0, v => by simp [from_int, toNat, bitsToNat, Nat.mod_one]
  | s + 1, v => by
    have ih := from_int_toNat s (v / 2)
    show bitsToNat ((List.range (s + 1)).map (fun i => v.testBit i)) = _
    rw [List.range_succ_eq_map]
    simp only [List.map_cons, List.map_map]
    have hfun : ((fun i => v.testBit i) ∘ Nat.succ) = fun i => (v / 2).testBit i := by
      funext i
      simp [Function.comp, Nat.testBit_add_one]
    rw [hfun]
    have hih : bitsToNat ((List.range s).map fun i => (v / 2).testBit i)
        = v / 2 % 2 ^ s := ih
    show (v.testBit 0).toNat
        + 2 * bitsToNat ((List.range s).map fun i => (v / 2).testBit i) = _
    rw [hih, mod_two_pow_succ, Nat.testBit_zero]
    have ha : v % 2 < 2 := Nat.mod_lt _ (by norm_num)
    by_cases h : v % 2 = 1
    · simp [h]
    · have h0 : v % 2 = 0 := by omega
      simp [h0]

theorem bitsToNat_all_not : ∀ bs : List Bool,
    (bs.all fun b => !b) = decide (bitsToNat bs = 0)
  | [] => by simp [bitsToNat]
  | b :: bs => by
    have ih := bitsToNat_all_not bs
    cases b
    · simp only [List.all_cons, Bool.not_false, Bool.true_and, ih, bitsToNat,
        decide_eq_decide, Bool.toNat_false]
      omega
    · simp [bitsToNat]

theorem is_zero_eq_decide (x : FlexInt) : x.is_zero = decide (x.toNat = 0) :=
  bitsToNat_all_not x.bits

/-- The largest-possible-negative test recognises exactly the value
`2 ^ (w - 1)`. -/
theorem lpn_list : ∀ bs : List Bool, bs ≠ [] →
    (bs.getD (bs.length - 1) false && (bs.take (bs.length - 1)).all (fun b => !b))
      = decide (bitsToNat bs = 2 ^ (bs.length - 1))
  | [], h => absurd rfl h
  | [b], _ => by cases b <;> simp [bitsToNat]
  | b :: c :: bs, _ => by
    have ih := lpn_list (c :: bs) (by simp)
    have hlt := bitsToNat_lt (c :: bs)
    have hpow : (2 : Nat) ^ (bs.length + 1) = 2 ^ bs.length * 2 := pow_succ 2 bs.length
    simp only [List.length_cons, Nat.add_sub_cancel, List.getD_cons_succ,
      List.take_succ_cons, List.all_cons] at ih hlt ⊢
    cases b
    · simp only [Bool.not_false, Bool.true_and, Bool.and_left_comm] at ih ⊢
      rw [ih]
      simp only [bitsToNat, Bool.toNat_false, decide_eq_decide, hpow]
      omega
    · simp only [Bool.not_true, Bool.false_and, Bool.and_false]
      symm
      rw [decide_eq_false_iff_not]
      simp only [bitsToNat, Bool.toNat_true, hpow]
      omega

theorem is_largest_possible_negative_eq_decide (x : FlexInt) (h : x.bits ≠ []) :
    x.is_largest_possible_negative = decide (x.toNat = 2 ^ (x.size - 1)) :=
  lpn_list x.bits h

theorem invert_bitsToNat : ∀ bs : List Bool,
    bitsToNat (bs.map fun b => !b) = 2 ^ bs.length - 1 - bitsToNat bs
  | [] => rfl
  | b :: bs => by
    have ih := invert_bitsToNat bs
    have hlt := bitsToNat_lt bs
    cases b <;> simp [bitsToNat, pow_succ, ih] <;> omega

theorem invert_toNat (x : FlexInt) : x.invert.toNat = 2 ^ x.size - 1 - x.toNat :=
  invert_bitsToNat x.bits

theorem invert_size (x : FlexInt) : x.invert.size = x.size := by
  simp [invert, size]

/-- `negate` on a value that is not the largest possible negative: it
succeeds, preserves the width, and returns the two's complement
`(2^w - n) mod 2^w`; on the largest possible negative it returns `none`. -/
theorem negate_spec (x : FlexInt) (h : 1 ≤ x.size) :
    (x.is_largest_possible_negative = true → x.negate = none) ∧
    (x.is_largest_possible_negative = false →
      ∃ r, x.negate = some r ∧ r.size = x.size ∧
        r.toNat = (2 ^ x.size - x.toNat) % 2 ^ x.size) := by
  constructor
  · intro hlpn
    simp [negate, hlpn]
  · intro hlpn
    by_cases hz : x.is_zero
    · refine ⟨x, ?_, rfl, ?_⟩
      · simp [negate, hlpn, hz]
      · have h0 : x.toNat = 0 := by
          have := is_zero_eq_decide x
          rw [hz] at this
          exact of_decide_eq_true this.symm
        simp [h0, Nat.mod_self]
    · have hz0 : x.toNat ≠ 0 := by
        intro h0
        apply hz
        rw [is_zero_eq_decide, h0]
        simp
      have hsz : x.invert.size = (new_one x.size).size := by
        rw [invert_size, new_one_size]
      have hlt := toNat_lt x
      have hcarry : (x.invert.add (new_one x.size) false).2 = false := by
        rw [add_snd_unsigned _ _ hsz, invert_size, invert_toNat,
          new_one_toNat _ h, decide_eq_false_iff_not]
        omega
      refine ⟨(x.invert.add (new_one x.size) false).1, ?_, ?_, ?_⟩
      · simp [negate, hlpn, hz, hcarry]
      · rw [add_fst_size _ _ false hsz, invert_size]
      · rw [add_fst_toNat _ _ false hsz, invert_size, invert_toNat,
          new_one_toNat _ h]
        congr 1
        omega

/-! ## Signed interpretation -/

theorem mod_two_split (s K : Nat) (hK : 0 < K) (h : s < 2 * K) :
    s % K = if s < K then s else s - K := by
  split_ifs with hs
  · exact Nat.mod_eq_of_lt hs
  · have h1 : s % K = (s - K) % K := by
      conv_lhs => rw [show s = s - K + K by omega]
      rw [Nat.add_mod_right]
    rw [h1, Nat.mod_eq_of_lt (by omega)]

theorem emod_cases (z M : Int) (hM : 0 < M) (h1 : -M ≤ z) (h2 : z < 2 * M) :
    z % M = if z < 0 then z + M else if z < M then z else z - M := by
  split_ifs with ha hb
  · have he : z % M = (z + M) % M := by
      rw [show z + M = z + M * 1 by ring, Int.add_mul_emod_self_left]
    rw [he, Int.emod_eq_of_lt (by omega) (by omega)]
  · exact Int.emod_eq_of_lt (by omega) hb
  · have he : z % M = (z - M) % M := by
      rw [show z - M = z + M * (-1) by ring, Int.add_mul_emod_self_left]
    rw [he, Int.emod_eq_of_lt (by omega) (by omega)]

theorem toInt_eq_ite (x : FlexInt) (h : x.bits ≠ []) :
    x.toInt = if 2 ^ (x.size - 1) ≤ x.toNat
              then (x.toNat : Int) - 2 ^ x.size else (x.toNat : Int) := by
  rw [toInt, is_negative_eq_decide x h]
  by_cases hc : 2 ^ (x.size - 1) ≤ x.toNat <;> simp [hc]

/-- Bridge between `Nat` powers of two (used by the bit-level lemmas) and
`Int` powers of two (used by the signed interpretation). -/
theorem cast_two_pow (k : Nat) : ((2 ^ k : Nat) : Int) = (2 : Int) ^ k := by
  push_cast; ring

theorem toInt_bounds (x : FlexInt) (h : 1 ≤ x.size) :
    -(2 ^ (x.size - 1) : Int) ≤ x.toInt ∧ x.toInt < 2 ^ (x.size - 1) := by
  have hne : x.bits ≠ [] := List.ne_nil_of_length_pos h
  have hlt := toNat_lt x
  have hpow : (2 : Nat) ^ x.size = 2 * 2 ^ (x.size - 1) := by
    conv_lhs => rw [show x.size = x.size - 1 + 1 by omega]
    rw [pow_succ]; ring
  have hb1 := cast_two_pow (x.size - 1)
  have hb2 := cast_two_pow x.size
  rw [toInt_eq_ite x hne]
  split_ifs with hc <;> constructor <;> omega

/-- Reduction of the two's-complement wrap `(d + A) % 2A - A` to explicit
interval cases, for `d` in the doubled range. -/
theorem wrap_formula (d A : Int) (hA : 0 < A) (hlo : -(2 * A) ≤ d) (hhi : d < 2 * A) :
    (d + A) % (2 * A) - A
      = if d < -A then d + 2 * A else if d < A then d else d - 2 * A := by
  rw [emod_cases (d + A) (2 * A) (by omega) (by omega) (by omega)]
  split_ifs <;> omega

/-- Exact value of signed addition: the result is the two's-complement wrap
of the exact integer sum. -/
theorem add_signed_toInt (x y : FlexInt) (h : x.size = y.size) (h1 : 1 ≤ x.size) :
    (x.add y true).1.toInt
      = (x.toInt + y.toInt + 2 ^ (x.size - 1)) % 2 ^ x.size - 2 ^ (x.size - 1) := by
  have hy1 : 1 ≤ y.size := h ▸ h1
  have hrsize := add_fst_size x y true h
  have hrnat := add_fst_toNat x y true h
  have hr1 : 1 ≤ (x.add y true).1.size := by omega
  have hxne : x.bits ≠ [] := List.ne_nil_of_length_pos h1
  have hyne : y.bits ≠ [] := List.ne_nil_of_length_pos hy1
  have hrne : (x.add y true).1.bits ≠ [] := List.ne_nil_of_length_pos hr1
  have hxlt := toNat_lt x
  have hylt := toNat_lt y
  have hylt' : y.toNat < 2 ^ x.size := by rw [h]; exact hylt
  have hpow : (2 : Nat) ^ x.size = 2 * 2 ^ (x.size - 1) := by
    conv_lhs => rw [show x.size = x.size - 1 + 1 by omega]
    rw [pow_succ]; ring
  have hmod := mod_two_split (x.toNat + y.toNat) (2 ^ x.size)
    (Nat.two_pow_pos _) (by omega)
  rw [hmod] at hrnat
  have hb1 := cast_two_pow (x.size - 1)
  have hb2 := cast_two_pow x.size
  have hpowZ : (2 : Int) ^ x.size = 2 * (2 : Int) ^ (x.size - 1) := by
    rw [← hb1, ← hb2]
    exact_mod_cast congrArg (fun n : Nat => (n : Int)) hpow
  have hApos : (0 : Int) < (2 : Int) ^ (x.size - 1) := by positivity
  have hxb := toInt_bounds x h1
  have hyb := toInt_bounds y hy1
  rw [← h] at hyb
  rw [hpowZ, wrap_formula (x.toInt + y.toInt) ((2 : Int) ^ (x.size - 1)) hApos
    (by omega) (by omega)]
  rw [toInt_eq_ite _ hrne, hrsize, hrnat, toInt_eq_ite x hxne, toInt_eq_ite y hyne,
    ← h]
  split_ifs <;> omega

/-- Exact overflow of signed addition: the sign-transition flag fires
precisely when the exact integer sum leaves the representable range. -/
theorem add_signed_overflow (x y : FlexInt) (h : x.size = y.size) (h1 : 1 ≤ x.size) :
    (x.add y true).2
      = decide (x.toInt + y.toInt < -(2 ^ (x.size - 1) : Int) ∨
                (2 ^ (x.size - 1) : Int) ≤ x.toInt + y.toInt) := by
  have hy1 : 1 ≤ y.size := h ▸ h1
  have hrsize := add_fst_size x y true h
  have hrnat := add_fst_toNat x y true h
  have hr1 : 1 ≤ (x.add y true).1.size := by omega
  have hxne : x.bits ≠ [] := List.ne_nil_of_length_pos h1
  have hyne : y.bits ≠ [] := List.ne_nil_of_length_pos hy1
  have hrne : (x.add y true).1.bits ≠ [] := List.ne_nil_of_length_pos hr1
  have hxlt := toNat_lt x
  have hylt := toNat_lt y
  have hylt' : y.toNat < 2 ^ x.size := by rw [h]; exact hylt
  have hpow : (2 : Nat) ^ x.size = 2 * 2 ^ (x.size - 1) := by
    conv_lhs => rw [show x.size = x.size - 1 + 1 by omega]
    rw [pow_succ]; ring
  have hmod := mod_two_split (x.toNat + y.toNat) (2 ^ x.size)
    (Nat.two_pow_pos _) (by omega)
  rw [hmod] at hrnat
  clear hmod
  have hb1 := cast_two_pow (x.size - 1)
  have hb2 := cast_two_pow x.size
  have hflag : (x.add y true).2
      = (if y.is_negative then x.is_negative && !(x.add y true).1.is_negative
         else !x.is_negative && (x.add y true).1.is_negative) := rfl
  rw [hflag, is_negative_eq_decide x hxne, is_negative_eq_decide y hyne,
    is_negative_eq_decide _ hrne, hrsize, hrnat,
    toInt_eq_ite x hxne, toInt_eq_ite y hyne, ← h]
  rw [Bool.eq_iff_iff]
  split_ifs <;>
    simp only [decide_eq_true_eq, Bool.and_eq_true, Bool.not_eq_true',
      decide_eq_false_iff_not, Bool.true_and, Bool.false_and] at * <;>
    omega

/-- A successful `negate` yields the exact integer negation. -/
theorem negate_toInt (y n : FlexInt) (h1 : 1 ≤ y.size)
    (hn : y.negate = some n) : n.size = y.size ∧ n.toInt = -y.toInt := by
  have hyne : y.bits ≠ [] := List.ne_nil_of_length_pos h1
  have hlpn : y.is_largest_possible_negative = false := by
    rcases hb : y.is_largest_possible_negative
    · rfl
    · rw [(negate_spec y h1).1 hb] at hn
      exact absurd hn (by simp)
  obtain ⟨r, hr, hrs, hrv⟩ := (negate_spec y h1).2 hlpn
  have hrn : r = n := by
    have := hr.symm.trans hn
    injection this
  subst hrn
  have hmod := mod_two_split (2 ^ y.size - y.toNat) (2 ^ y.size)
    (Nat.two_pow_pos _) (by have := toNat_lt y; omega)
  rw [hmod] at hrv
  refine ⟨hrs, ?_⟩
  have hnne : r.bits ≠ [] := ne_nil_of_size r (by omega)
  have hb1 := cast_two_pow (y.size - 1)
  have hb2 := cast_two_pow y.size
  have hpow : (2 : Nat) ^ y.size = 2 * 2 ^ (y.size - 1) := by
    conv_lhs => rw [show y.size = y.size - 1 + 1 by omega]
    rw [pow_succ]; ring
  have hlpn2 : y.toNat ≠ 2 ^ (y.size - 1) := by
    have hd := is_largest_possible_negative_eq_decide y hyne
    rw [hlpn] at hd
    exact of_decide_eq_false hd.symm
  have hylt := toNat_lt y
  rw [toInt_eq_ite r hnne, toInt_eq_ite y hyne, hrs, hrv]
  split_ifs <;> omega

/-- Pure integer arithmetic of the `subtract_signed` minimal-negative
fallback: adding `K - 1` and then `1` (each with wrap and exact-overflow
tracking) agrees with directly adding `K`. -/
theorem fallback_arith (tx K : Int) (hK : 1 < K) (hlo : -K ≤ tx) (hhi : tx < K) :
    ((tx + (K - 1) + K) % (2 * K) - K + 1 + K) % (2 * K) - K
      = (tx + K + K) % (2 * K) - K ∧
    (decide (tx + (K - 1) < -K ∨ K ≤ tx + (K - 1)) ||
     decide ((tx + (K - 1) + K) % (2 * K) - K + 1 < -K ∨
             K ≤ (tx + (K - 1) + K) % (2 * K) - K + 1))
      = decide (tx + K < -K ∨ K ≤ tx + K) := by
  have hrhs := wrap_formula (tx + K) K (by omega) (by omega) (by omega)
  rw [show tx + K + K = tx + K + K by ring] at hrhs
  have h1 := wrap_formula (tx + (K - 1)) K (by omega) (by omega) (by omega)
  rw [h1, hrhs]
  constructor
  · split_ifs with c1 c2 <;>
      rw [wrap_formula _ K (by omega) (by omega) (by omega)] <;>
      split_ifs <;> omega
  · rw [Bool.eq_iff_iff]
    simp only [Bool.or_eq_true, decide_eq_true_eq]
    split_ifs <;> omega

/-- C3: for widths w ≥ 3 and same-width signed operands, `subtract` with
`signed = true` returns the two's-complement wrap of the exact difference
and an overflow flag set exactly when that difference is unrepresentable;
this covers the two-step fallback taken when the subtrahend is the minimal
negative value. -/
theorem claim_C3_subtract_signed_exact (w : Nat) (hw : 3 ≤ w) (x y : FlexInt)
    (hx : x.size = w) (hy : y.size = w) :
    (x.subtract y true).1.toInt
      = (x.toInt - y.toInt + 2 ^ (w - 1)) % 2 ^ w - 2 ^ (w - 1) ∧
    (x.subtract y true).1.size = w ∧
    (x.subtract y true).2
      = decide (x.toInt - y.toInt < -(2 ^ (w - 1) : Int) ∨
                (2 ^ (w - 1) : Int) ≤ x.toInt - y.toInt) := by
  have h1x : 1 ≤ x.size := by omega
  have h1y : 1 ≤ y.size := by omega
  have hyne : y.bits ≠ [] := List.ne_nil_of_length_pos h1y
  have hb1 := cast_two_pow (w - 1)
  have hb2 := cast_two_pow w
  have hpow : (2 : Nat) ^ w = 2 * 2 ^ (w - 1) := by
    conv_lhs => rw [show w = w - 1 + 1 by omega]
    rw [pow_succ]; ring
  have hpowZ : (2 : Int) ^ w = 2 * (2 : Int) ^ (w - 1) := by
    rw [← hb1, ← hb2]
    exact_mod_cast congrArg (fun n : Nat => (n : Int)) hpow
  have hKgtN : 4 ≤ 2 ^ (w - 1) := by
    calc (4 : Nat) = 2 ^ 2 := by norm_num
    _ ≤ 2 ^ (w - 1) := Nat.pow_le_pow_right (by norm_num) (by omega)
  have hKgt : (1 : Int) < 2 ^ (w - 1) := by omega
  rcases hlpn : y.is_largest_possible_negative
  · -- main path: the subtrahend can be negated directly
    obtain ⟨n, hn, hns, _⟩ := (negate_spec y h1y).2 hlpn
    obtain ⟨hns2, hni⟩ := negate_toInt y n h1y hn
    have hsub : x.subtract y true = x.add n true := by
      simp [subtract, subtract_signed, hn]
    have hsz : x.size = n.size := by omega
    rw [hsub, add_signed_toInt x n hsz h1x, add_signed_overflow x n hsz h1x,
      add_fst_size x n true hsz, hni, hx]
    refine ⟨?_, rfl, ?_⟩
    · simp only [sub_eq_add_neg]
    · simp only [sub_eq_add_neg]
  · -- fallback path: the subtrahend is the minimal negative value
    have hnone : y.negate = none := (negate_spec y h1y).1 hlpn
    have hyv : y.toNat = 2 ^ (w - 1) := by
      have hd := is_largest_possible_negative_eq_decide y hyne
      rw [hlpn, hy] at hd
      exact of_decide_eq_true hd.symm
    have hyi : y.toInt = -(2 : Int) ^ (w - 1) := by
      rw [toInt_eq_ite y hyne, hy, hyv]
      split_ifs <;> omega
    -- the intermediate value y + 1
    have hsz1 : y.size = (new_one x.size).size := by rw [new_one_size]; omega
    have hps : (y.add (new_one x.size) true).1.size = w := by
      rw [add_fst_size y _ true hsz1, hy]
    have hpv : (y.add (new_one x.size) true).1.toNat = 2 ^ (w - 1) + 1 := by
      rw [add_fst_toNat y _ true hsz1, new_one_toNat _ (by omega), hyv, hy]
      exact Nat.mod_eq_of_lt (by omega)
    have hpne : (y.add (new_one x.size) true).1.bits ≠ [] :=
      ne_nil_of_size _ (by omega)
    have hplpn : (y.add (new_one x.size) true).1.is_largest_possible_negative
        = false := by
      rw [is_largest_possible_negative_eq_decide _ hpne, hps, hpv,
        decide_eq_false_iff_not]
      omega
    obtain ⟨n2, hn2, hn2s, hn2v⟩ :=
      (negate_spec (y.add (new_one x.size) true).1 (by omega)).2 hplpn
    have hn2s2 : n2.size = w := by omega
    have hn2v2 : n2.toNat = 2 ^ (w - 1) - 1 := by
      have hlt2 : 2 ^ w - (2 ^ (w - 1) + 1) < 2 ^ w := by omega
      rw [hn2v, hps, hpv, Nat.mod_eq_of_lt hlt2]
      omega
    have hn2ne : n2.bits ≠ [] := ne_nil_of_size n2 (by omega)
    have hn2i : n2.toInt = (2 : Int) ^ (w - 1) - 1 := by
      rw [toInt_eq_ite n2 hn2ne, hn2s2, hn2v2]
      split_ifs <;> omega
    -- the trailing +1 constant
    have hfi_v : (from_int 1 x.size).toNat = 1 := by
      rw [from_int_toNat, hx]
      exact Nat.mod_eq_of_lt (by omega)
    have hfi_ne : (from_int 1 x.size).bits ≠ [] :=
      ne_nil_of_size _ (by rw [from_int_size]; omega)
    have hfi_i : (from_int 1 x.size).toInt = 1 := by
      rw [toInt_eq_ite _ hfi_ne, from_int_size, hfi_v, hx]
      split_ifs <;> omega
    -- unfold the fallback branch of subtract_signed
    have hsub : x.subtract y true
        = (((x.add n2 true).1.add (from_int 1 x.size) true).1,
           (x.add n2 true).2
             || ((x.add n2 true).1.add (from_int 1 x.size) true).2) := by
      simp [subtract, subtract_signed, hnone, hn2]
    have hszn2 : x.size = n2.size := by omega
    have hr1s : (x.add n2 true).1.size = x.size := add_fst_size x n2 true hszn2
    have hszf : (x.add n2 true).1.size = (from_int 1 x.size).size := by
      rw [hr1s, from_int_size]
    have hinner := add_signed_toInt x n2 hszn2 h1x
    have hinnerflag := add_signed_overflow x n2 hszn2 h1x
    have houter := add_signed_toInt (x.add n2 true).1 (from_int 1 x.size)
      hszf (by omega)
    have houterflag := add_signed_overflow (x.add n2 true).1 (from_int 1 x.size)
      hszf (by omega)
    have hxb := toInt_bounds x h1x
    rw [hx] at hxb
    have hfa := fallback_arith x.toInt ((2 : Int) ^ (w - 1)) hKgt hxb.1 hxb.2
    rw [hsub]
    refine ⟨?_, ?_, ?_⟩
    · show ((x.add n2 true).1.add (from_int 1 x.size) true).1.toInt = _
      rw [houter, hr1s, hfi_i, hinner, hn2i, hx, hyi, hpowZ, sub_neg_eq_add,
        hfa.1]
    · show ((x.add n2 true).1.add (from_int 1 x.size) true).1.size = w
      rw [add_fst_size _ _ true hszf, hr1s, hx]
    · show ((x.add n2 true).2
          || ((x.add n2 true).1.add (from_int 1 x.size) true).2) = _
      rw [houterflag, hr1s, hfi_i, hinner, hinnerflag, hn2i, hx, hyi, hpowZ,
        sub_neg_eq_add, hfa.2]

/-- Witness for C3 at w = 3 with x = 3 and y = -4 (the minimal negative,
exercising the two-step fallback; 3 - (-4) = 7 overflows). -/
theorem claim_C3_subtract_signed_exact_witness :
    ((from_int 3 3).subtract (from_int 4 3) true).1.toInt
      = ((from_int 3 3).toInt - (from_int 4 3).toInt + 2 ^ (3 - 1)) % 2 ^ 3
          - 2 ^ (3 - 1) ∧
    ((from_int 3 3).subtract (from_int 4 3) true).1.size = 3 ∧
    ((from_int 3 3).subtract (from_int 4 3) true).2
      = decide ((from_int 3 3).toInt - (from_int 4 3).toInt
          < -(2 ^ (3 - 1) : Int) ∨
        (2 ^ (3 - 1) : Int) ≤ (from_int 3 3).toInt - (from_int 4 3).toInt) :=
  claim_C3_subtract_signed_exact 3 (by decide) (from_int 3 3) (from_int 4 3)
    (by decide) (by decide)

/-! ## Claims C6, C4, C9: negation and division special cases -/

/-- C6: `negate` is an involution on every value except the minimal
negative; negating the minimal negative yields no value; and zero is
negated to itself through the dedicated early return (the invert-then-add
path is never entered for zero, as the definition of `negate` shows). -/
theorem claim_C6_negate_involution (x : FlexInt) (h : 1 ≤ x.size) :
    (x.is_largest_possible_negative = false → x.negate.bind negate = some x) ∧
    (x.is_largest_possible_negative = true → x.negate = none) ∧
    negate (new x.size) = some (new x.size) := by
  have hxne : x.bits ≠ [] := ne_nil_of_size x h
  have hxlt := toNat_lt x
  have hKpos : 0 < 2 ^ (x.size - 1) := Nat.two_pow_pos _
  have hpow : (2 : Nat) ^ x.size = 2 * 2 ^ (x.size - 1) := by
    conv_lhs => rw [show x.size = x.size - 1 + 1 by omega]
    rw [pow_succ]; ring
  refine ⟨?_, (negate_spec x h).1, ?_⟩
  · intro hlpn
    obtain ⟨r, hr, hrs, hrv⟩ := (negate_spec x h).2 hlpn
    have hxv : x.toNat ≠ 2 ^ (x.size - 1) := by
      have hd := is_largest_possible_negative_eq_decide x hxne
      rw [hlpn] at hd
      exact of_decide_eq_false hd.symm
    have hmod := mod_two_split (2 ^ x.size - x.toNat) (2 ^ x.size)
      (Nat.two_pow_pos _) (by omega)
    rw [hmod] at hrv
    have hrne : r.bits ≠ [] := ne_nil_of_size r (by omega)
    have hrlt := toNat_lt r
    have hrlpn : r.is_largest_possible_negative = false := by
      rw [is_largest_possible_negative_eq_decide r hrne, hrs,
        decide_eq_false_iff_not]
      split_ifs at hrv <;> omega
    obtain ⟨r2, hr2, hr2s, hr2v⟩ := (negate_spec r (by omega)).2 hrlpn
    have hmod2 := mod_two_split (2 ^ r.size - r.toNat) (2 ^ r.size)
      (Nat.two_pow_pos _) (by omega)
    rw [hmod2] at hr2v
    have hr2x : r2 = x := by
      apply toNat_inj (by omega)
      rw [hr2v, hrs]
      split_ifs at hrv ⊢ <;> omega
    rw [hr]
    show negate r = some x
    rw [hr2, hr2x]
  · have hz : (new x.size).is_zero = true := by
      rw [is_zero_eq_decide, new_toNat]
      simp
    have hlpnz : (new x.size).is_largest_possible_negative = false := by
      have hne : (new x.size).bits ≠ [] :=
        ne_nil_of_size _ (by rw [new_size]; omega)
      rw [is_largest_possible_negative_eq_decide _ hne, new_toNat, new_size,
        decide_eq_false_iff_not]
      have := Nat.two_pow_pos (x.size - 1)
      omega
    simp [negate, hlpnz, hz]

/-- Witness for C6 at x = 5 of width 3 (negate gives 3, negating back
gives 5; also the minimal-negative and zero conjuncts at width 3). -/
theorem claim_C6_negate_involution_witness :
    ((from_int 5 3).is_largest_possible_negative = false →
      (from_int 5 3).negate.bind negate = some (from_int 5 3)) ∧
    ((from_int 5 3).is_largest_possible_negative = true →
      (from_int 5 3).negate = none) ∧
    negate (new (from_int 5 3).size) = some (new (from_int 5 3).size) :=
  claim_C6_negate_involution (from_int 5 3) (by decide)

theorem bitsToNat_replicate_true : ∀ n, bitsToNat (List.replicate n true) = 2 ^ n - 1
  | 0 => rfl
  | n + 1 => by
    have ih := bitsToNat_replicate_true n
    have hp := Nat.two_pow_pos n
    simp only [List.replicate, bitsToNat, Bool.toNat_true, ih, pow_succ]
    omega

/-- C4: dividing any value by the zero value of its width returns the zero
value together with overflow = true, for both signedness flags (the
division-by-zero check fires before the long-division loop, so no fault is
possible). -/
theorem claim_C4_divide_by_zero (w : Nat) (hw : 3 ≤ w) (x : FlexInt)
    (hx : x.size = w) (sg : Bool) :
    x.divide (new w) sg = (new w, true) := by
  have hone_ne : new w ≠ new_one w := by
    intro he
    have hv := congrArg toNat he
    rw [new_toNat, new_one_toNat _ (by omega)] at hv
    exact absurd hv (by norm_num)
  have hneg : (new w).is_negative = false := by
    have hne : (new w).bits ≠ [] := ne_nil_of_size _ (by rw [new_size]; omega)
    rw [is_negative_eq_decide _ hne, new_toNat, decide_eq_false_iff_not]
    have := Nat.two_pow_pos ((new w).size - 1)
    omega
  have habs : (new w).abs = some (new w) := by simp [abs, hneg]
  have hone : (if sg then decide ((new w).abs = some (new_one w))
               else decide (new w = new_one w)) = false := by
    cases sg <;> simp [habs, hone_ne]
  have hzero : (new w).is_zero = true := by
    rw [is_zero_eq_decide, new_toNat]
    simp
  simp only [divide, hone, hzero, Bool.false_eq_true, if_false, if_true, hx]

/-- Witness for C4 at w = 3, x = 5, signed. -/
theorem claim_C4_divide_by_zero_witness :
    (from_int 5 3).divide (new 3) true = (new 3, true) :=
  claim_C4_divide_by_zero 3 (by decide) (from_int 5 3) (by decide) true

/-- C9: signed division by the all-ones value (−1) takes the divisor-is-
minus-one special case in `divide`: the minimal negative dividend (whose
negation fails) yields a zero result with overflow, and every other
dividend yields its negation without overflow, bypassing the long-division
loop. -/
theorem claim_C9_divide_by_neg_one (w : Nat) (hw : 3 ≤ w) (x : FlexInt)
    (hx : x.size = w) :
    x.divide ⟨List.replicate w true⟩ true
      = match x.negate with
        | some n => (n, false)
        | none => (new w, true) := by
  have hKpos : 0 < 2 ^ (w - 1) := Nat.two_pow_pos _
  have hpow : (2 : Nat) ^ w = 2 * 2 ^ (w - 1) := by
    conv_lhs => rw [show w = w - 1 + 1 by omega]
    rw [pow_succ]; ring
  have hK4 : 4 ≤ 2 ^ (w - 1) := by
    calc (4 : Nat) = 2 ^ 2 := by norm_num
    _ ≤ 2 ^ (w - 1) := Nat.pow_le_pow_right (by norm_num) (by omega)
  have hsize : (⟨List.replicate w true⟩ : FlexInt).size = w := by
    simp [size]
  have hvne : (⟨List.replicate w true⟩ : FlexInt).toNat = 2 ^ w - 1 :=
    bitsToNat_replicate_true w
  have hne : (⟨List.replicate w true⟩ : FlexInt).bits ≠ [] :=
    ne_nil_of_size _ (by rw [hsize]; omega)
  have hneg : (⟨List.replicate w true⟩ : FlexInt).is_negative = true := by
    rw [is_negative_eq_decide _ hne, hsize, hvne, decide_eq_true_eq]
    omega
  have hlpn : (⟨List.replicate w true⟩ : FlexInt).is_largest_possible_negative
      = false := by
    rw [is_largest_possible_negative_eq_decide _ hne, hsize, hvne,
      decide_eq_false_iff_not]
    omega
  obtain ⟨n1, hn1, hn1s, hn1v⟩ :=
    (negate_spec ⟨List.replicate w true⟩ (by rw [hsize]; omega)).2 hlpn
  have hn1eq : n1 = new_one x.size := by
    apply toNat_inj
    · rw [hn1s, hsize, new_one_size, hx]
    · rw [hn1v, hsize, hvne, new_one_toNat _ (by omega)]
      have h1 : 2 ^ w - (2 ^ w - 1) = 1 := by omega
      rw [h1, Nat.mod_eq_of_lt (by omega)]
  have habs : (⟨List.replicate w true⟩ : FlexInt).abs = some (new_one x.size) := by
    rw [abs, hneg, if_pos rfl, hn1, hn1eq]
  rcases hneg2 : x.negate with _ | n
  · simp [divide, habs, hneg, hneg2, hx]
  · simp [divide, habs, hneg, hneg2]

/-- Witness for C9 at w = 3 with the minimal negative dividend −4. -/
theorem claim_C9_divide_by_neg_one_witness :
    (from_int 4 3).divide ⟨List.replicate 3 true⟩ true
      = match (from_int 4 3).negate with
        | some n => (n, false)
        | none => (new 3, true) :=
  claim_C9_divide_by_neg_one 3 (by decide) (from_int 4 3) (by decide)

/-! ## Unsigned multiplication -/

theorem bitsToNat_append : ∀ xs ys : List Bool,
    bitsToNat (xs ++ ys) = bitsToNat xs + 2 ^ xs.length * bitsToNat ys
  | [], ys => by simp [bitsToNat]
  | x :: xs, ys => by
    have ih := bitsToNat_append xs ys
    cases x <;> simp [bitsToNat, ih, List.length_cons, pow_succ] <;> ring

theorem bitsToNat_take_of_le (bs : List Bool) (k : Nat) (h : k ≤ bs.length) :
    bitsToNat (bs.take k) = bitsToNat bs % 2 ^ k := by
  have hlen : (bs.take k).length = k := by
    rw [List.length_take]
    omega
  have hlt := bitsToNat_lt (bs.take k)
  rw [hlen] at hlt
  conv_rhs => rw [← List.take_append_drop k bs]
  rw [bitsToNat_append, hlen, Nat.add_mul_mod_self_left, Nat.mod_eq_of_lt hlt]

theorem count_true_eq_zero_iff (l : List Bool) :
    l.count true = 0 ↔ bitsToNat l = 0 := by
  have hall := bitsToNat_all_not l
  rw [List.count_eq_zero]
  constructor
  · intro hmem
    have : l.all (fun b => !b) = true := by
      rw [List.all_eq_true]
      intro b hb
      cases b
      · rfl
      · exact absurd hb hmem
    rw [hall] at this
    exact of_decide_eq_true this
  · intro hz
    intro hmem
    have : l.all (fun b => !b) = true := by
      rw [hall]
      exact decide_eq_true hz
    rw [List.all_eq_true] at this
    have := this true hmem
    simp at this

theorem pop_shift_left_spec : ∀ (k : Nat) (x : FlexInt),
    (x.pop_shift_left k).1.size = x.size ∧
    (x.pop_shift_left k).1.toNat = x.toNat * 2 ^ k % 2 ^ x.size
  | 0, x => by
    refine ⟨rfl, ?_⟩
    show x.toNat = x.toNat * 2 ^ 0 % 2 ^ x.size
    rw [pow_zero, Nat.mul_one, Nat.mod_eq_of_lt (toNat_lt x)]
  | k + 1, x => by
    have hstep : (⟨(false :: x.bits).dropLast⟩ : FlexInt).size = x.size := by
      show (false :: x.bits).dropLast.length = x.bits.length
      rw [List.length_dropLast, List.length_cons]
      omega
    have hval : (⟨(false :: x.bits).dropLast⟩ : FlexInt).toNat
        = 2 * x.toNat % 2 ^ x.size := by
      show bitsToNat (false :: x.bits).dropLast = 2 * bitsToNat x.bits % 2 ^ x.bits.length
      rw [List.dropLast_eq_take, bitsToNat_take_of_le _ _ (by simp)]
      have hv : bitsToNat (false :: x.bits) = 2 * bitsToNat x.bits := by
        simp [bitsToNat]
      rw [hv, List.length_cons, Nat.add_sub_cancel]
    obtain ⟨ihs, ihv⟩ := pop_shift_left_spec k ⟨(false :: x.bits).dropLast⟩
    constructor
    · show (pop_shift_left ⟨(false :: x.bits).dropLast⟩ k).1.size = x.size
      rw [ihs, hstep]
    · show (pop_shift_left ⟨(false :: x.bits).dropLast⟩ k).1.toNat
        = x.toNat * 2 ^ (k + 1) % 2 ^ x.size
      rw [ihv, hval, hstep, Nat.mod_mul_mod]
      congr 1
      ring

theorem unchecked_shift_left_spec (x : FlexInt) (k : Nat) :
    (x.unchecked_shift_left k).size = x.size ∧
    (x.unchecked_shift_left k).toNat = x.toNat * 2 ^ k % 2 ^ x.size :=
  pop_shift_left_spec k x

theorem zero_extend_spec (x : FlexInt) (m : Nat) (h : x.size ≤ m) :
    (x.zero_extend m).size = m ∧ (x.zero_extend m).toNat = x.toNat := by
  have h2 : x.bits.length ≤ m := h
  constructor
  · show (x.bits ++ List.replicate (m - x.bits.length) false).length = m
    rw [List.length_append, List.length_replicate]
    omega
  · show bitsToNat (x.bits ++ List.replicate (m - x.bits.length) false) = bitsToNat x.bits
    rw [bitsToNat_append, bitsToNat_replicate_false, Nat.mul_zero, Nat.add_zero]

theorem shrink_spec (x : FlexInt) (k : Nat) (h : k ≤ x.size) :
    (x.shrink k).1.size = k ∧
    (x.shrink k).1.toNat = x.toNat % 2 ^ k ∧
    ((x.shrink k).2.2 = 0 ↔ x.toNat < 2 ^ k) := by
  have h2 : k ≤ x.bits.length := h
  refine ⟨?_, ?_, ?_⟩
  · show (x.bits.take k).length = k
    rw [List.length_take]
    omega
  · exact bitsToNat_take_of_le x.bits k h
  · show (x.bits.drop k).count true = 0 ↔ bitsToNat x.bits < 2 ^ k
    rw [count_true_eq_zero_iff]
    have hsplit : bitsToNat x.bits
        = bitsToNat (x.bits.take k) + 2 ^ k * bitsToNat (x.bits.drop k) := by
      conv_lhs => rw [← List.take_append_drop k x.bits]
      rw [bitsToNat_append, List.length_take, Nat.min_eq_left h2]
    have hlt := bitsToNat_lt (x.bits.take k)
    have hlen : (x.bits.take k).length = k := by rw [List.length_take]; omega
    rw [hlen] at hlt
    have hpos := Nat.two_pow_pos k
    constructor
    · intro hz
      rw [hsplit, hz]
      omega
    · intro hv
      by_contra hnz
      have h1 : 1 ≤ bitsToNat (x.bits.drop k) := by omega
      have : 2 ^ k * 1 ≤ 2 ^ k * bitsToNat (x.bits.drop k) :=
        Nat.mul_le_mul_left _ h1
      omega

theorem mulLoop_spec : ∀ (bs : List Bool) (i : Nat) (acc : FlexInt) (ov : Bool)
    (a_ext : FlexInt), acc.size = a_ext.size →
    acc.toNat + a_ext.toNat * bitsToNat bs * 2 ^ i < 2 ^ a_ext.size →
    (mulLoop a_ext false bs i acc ov).2 = ov ∧
    (mulLoop a_ext false bs i acc ov).1.size = acc.size ∧
    (mulLoop a_ext false bs i acc ov).1.toNat
      = acc.toNat + a_ext.toNat * bitsToNat bs * 2 ^ i
  | [], i, acc, ov, a_ext => by
    intro hs hb
    refine ⟨rfl, rfl, ?_⟩
    show acc.toNat = acc.toNat + a_ext.toNat * bitsToNat [] * 2 ^ i
    simp [bitsToNat]
  | b :: rest, i, acc, ov, a_ext => by
    intro hs hb
    rcases b
    · have he : a_ext.toNat * bitsToNat (false :: rest) * 2 ^ i
          = a_ext.toNat * bitsToNat rest * 2 ^ (i + 1) := by
        simp only [bitsToNat, Bool.toNat_false, Nat.zero_add, pow_succ]
        ring
      have ih := mulLoop_spec rest (i + 1) acc ov a_ext hs (by omega)
      show (mulLoop a_ext false rest (i + 1) acc ov).2 = ov ∧ _ ∧ _
      rw [he]
      exact ih
    · have he : a_ext.toNat * bitsToNat (true :: rest) * 2 ^ i
          = a_ext.toNat * 2 ^ i + a_ext.toNat * bitsToNat rest * 2 ^ (i + 1) := by
        simp only [bitsToNat, Bool.toNat_true, pow_succ]
        ring
      rw [he] at hb
      obtain ⟨hshs, hshv⟩ := unchecked_shift_left_spec a_ext i
      have hmod : (a_ext.unchecked_shift_left i).toNat = a_ext.toNat * 2 ^ i := by
        rw [hshv, Nat.mod_eq_of_lt (by omega)]
      have hsz2 : acc.size = (a_ext.unchecked_shift_left i).size := by
        rw [hshs, hs]
      have haddv := add_fst_toNat acc (a_ext.unchecked_shift_left i) false hsz2
      have hadds := add_fst_size acc (a_ext.unchecked_shift_left i) false hsz2
      have haddc := add_snd_unsigned acc (a_ext.unchecked_shift_left i) hsz2
      have hval : (acc.add (a_ext.unchecked_shift_left i) false).1.toNat
          = acc.toNat + a_ext.toNat * 2 ^ i := by
        rw [haddv, hmod, hs, Nat.mod_eq_of_lt (by omega)]
      have hcar : (acc.add (a_ext.unchecked_shift_left i) false).2 = false := by
        rw [haddc, hmod, hs, decide_eq_false_iff_not]
        omega
      have hone_eq : mulLoop a_ext false (true :: rest) i acc ov
          = mulLoop a_ext false rest (i + 1)
              (acc.add (a_ext.unchecked_shift_left i) false).1
              (ov || ((acc.add (a_ext.unchecked_shift_left i) false).2 && !false)) :=
        rfl
      rw [hone_eq, hcar]
      simp only [Bool.false_and, Bool.or_false]
      obtain ⟨ih1, ih2, ih3⟩ := mulLoop_spec rest (i + 1)
        (acc.add (a_ext.unchecked_shift_left i) false).1 ov a_ext
        (by rw [hadds, hsz2, hshs]) (by rw [hval]; omega)
      refine ⟨ih1, ?_, ?_⟩
      · rw [ih2, hadds]
      · rw [ih3, hval]
        omega

theorem multiply_unsigned_spec (x y : FlexInt) (h : x.size = y.size) :
    (x.multiply y false).1.size = x.size ∧
    (x.multiply y false).1.toNat = x.toNat * y.toNat % 2 ^ x.size ∧
    (x.multiply y false).2 = decide (2 ^ x.size ≤ x.toNat * y.toNat) := by
  have hxe := zero_extend_spec x (x.size * 2) (by omega)
  have hye := zero_extend_spec y (x.size * 2) (by rw [← h]; omega)
  have hble : bitsToNat (y.zero_extend (x.size * 2)).bits = y.toNat := hye.2
  have hprod : x.toNat * y.toNat < 2 ^ (x.size * 2) := by
    have hx := toNat_lt x
    have hy := toNat_lt y
    have hy2 : y.toNat < 2 ^ x.size := by rw [h]; exact hy
    have hp : x.toNat * y.toNat < 2 ^ x.size * 2 ^ x.size :=
      mul_lt_mul'' hx hy2 (Nat.zero_le _) (Nat.zero_le _)
    have he : (2 : Nat) ^ x.size * 2 ^ x.size = 2 ^ (x.size * 2) := by
      rw [← pow_add]
      congr 1
      ring
    omega
  have hloop := mulLoop_spec (y.zero_extend (x.size * 2)).bits 0
    (new (x.size * 2)) false (x.zero_extend (x.size * 2))
    (by rw [new_size, hxe.1])
    (by rw [new_toNat, hxe.2, hble, hxe.1, pow_zero, Nat.mul_one]; omega)
  obtain ⟨hl2, hl1s, hl1v⟩ := hloop
  have hl1v2 : (mulLoop (x.zero_extend (x.size * 2)) false
      (y.zero_extend (x.size * 2)).bits 0 (new (x.size * 2)) false).1.toNat
      = x.toNat * y.toNat := by
    rw [hl1v, new_toNat, hxe.2, hble, pow_zero, Nat.mul_one, Nat.zero_add]
  have hshr := shrink_spec (mulLoop (x.zero_extend (x.size * 2)) false
      (y.zero_extend (x.size * 2)).bits 0 (new (x.size * 2)) false).1 x.size
    (by rw [hl1s, new_size]; omega)
  refine ⟨?_, ?_, ?_⟩
  · show ((mulLoop (x.zero_extend (x.size * 2)) false
        (y.zero_extend (x.size * 2)).bits 0 (new (x.size * 2)) false).1.shrink
        x.size).1.size = x.size
    exact hshr.1
  · show ((mulLoop (x.zero_extend (x.size * 2)) false
        (y.zero_extend (x.size * 2)).bits 0 (new (x.size * 2)) false).1.shrink
        x.size).1.toNat = x.toNat * y.toNat % 2 ^ x.size
    rw [hshr.2.1, hl1v2]
  · show ((mulLoop (x.zero_extend (x.size * 2)) false
        (y.zero_extend (x.size * 2)).bits 0 (new (x.size * 2)) false).2
      || decide (((mulLoop (x.zero_extend (x.size * 2)) false
        (y.zero_extend (x.size * 2)).bits 0 (new (x.size * 2)) false).1.shrink
        x.size).2.2 > 0))
      = decide (2 ^ x.size ≤ x.toNat * y.toNat)
    have hcut := hshr.2.2
    rw [hl1v2] at hcut
    rw [hl2, Bool.false_or, decide_eq_decide]
    omega

/-! ## Decimal rendering -/

theorem addInto_spec : ∀ (src dst : List Nat) (c : Nat),
    src.length ≤ dst.length → c ≤ 1 →
    (∀ d ∈ src, d < 10) → (∀ d ∈ dst, d < 10) →
    (addInto src dst c).1.length = dst.length ∧
    (∀ d ∈ (addInto src dst c).1, d < 10) ∧
    (addInto src dst c).2 ≤ 1 ∧
    Nat.ofDigits 10 (addInto src dst c).1 + 10 ^ src.length * (addInto src dst c).2
      = Nat.ofDigits 10 dst + Nat.ofDigits 10 src + c
  | [], dst, c, _, hc, _, hdst => by
    refine ⟨rfl, hdst, hc, ?_⟩
    show Nat.ofDigits 10 dst + 10 ^ 0 * c = Nat.ofDigits 10 dst + Nat.ofDigits 10 [] + c
    rw [Nat.ofDigits_nil, pow_zero]
    omega
  | _ :: _, [], c, hlen, _, _, _ => by simp at hlen
  | s :: src, d :: dst, c, hlen, hc, hsrc, hdst => by
    have hs2 : ∀ u ∈ src, u < 10 := fun u hu => hsrc u (List.mem_cons_of_mem _ hu)
    have hd2 : ∀ u ∈ dst, u < 10 := fun u hu => hdst u (List.mem_cons_of_mem _ hu)
    have hsd : s < 10 := hsrc s (List.mem_cons_self _ _)
    have hdd : d < 10 := hdst d (List.mem_cons_self _ _)
    have hdiv : (s + d + c) / 10 ≤ 1 := by omega
    obtain ⟨ih1, ih2, ih3, ih4⟩ := addInto_spec src dst ((s + d + c) / 10)
      (by simpa using hlen) hdiv hs2 hd2
    refine ⟨?_, ?_, ih3, ?_⟩
    · show ((s + d + c) % 10 :: (addInto src dst ((s + d + c) / 10)).1).length
        = (d :: dst).length
      simp [ih1]
    · intro u hu
      rcases List.mem_cons.mp hu with h | h
      · omega
      · exact ih2 u h
    · show Nat.ofDigits 10 ((s + d + c) % 10 :: (addInto src dst ((s + d + c) / 10)).1)
          + 10 ^ (s :: src).length * (addInto src dst ((s + d + c) / 10)).2
        = Nat.ofDigits 10 (d :: dst) + Nat.ofDigits 10 (s :: src) + c
      rw [Nat.ofDigits_cons, Nat.ofDigits_cons, Nat.ofDigits_cons,
        List.length_cons, pow_succ]
      rcases Nat.le_one_iff_eq_zero_or_eq_one.mp ih3 with h0 | h1
      · rw [h0] at ih4 ⊢
        omega
      · rw [h1] at ih4 ⊢
        omega

theorem addDigits_double (ds : List Nat) (hd : ∀ d ∈ ds, d < 10)
    (hfit : 2 * Nat.ofDigits 10 ds < 10 ^ ds.length) :
    (addDigits ds ds).length = ds.length ∧
    (∀ d ∈ addDigits ds ds, d < 10) ∧
    Nat.ofDigits 10 (addDigits ds ds) = 2 * Nat.ofDigits 10 ds ∧
    (addDigits ds ds).headD 0 % 2 = 0 := by
  obtain ⟨h1, h2, h3, h4⟩ := addInto_spec ds ds 0 le_rfl (by norm_num) hd hd
  have hcz : (addInto ds ds 0).2 = 0 := by
    rcases Nat.le_one_iff_eq_zero_or_eq_one.mp h3 with h | h
    · exact h
    · rw [h, Nat.mul_one] at h4
      omega
  have hloop : addDigits ds ds = (addInto ds ds 0).1 := by
    show carryLoop (ds.length + 1) (addInto ds ds 0).1 ds.length (addInto ds ds 0).2
      = (addInto ds ds 0).1
    rw [hcz]
    simp [carryLoop]
  rw [hloop]
  rw [hcz, Nat.mul_zero, Nat.add_zero] at h4
  refine ⟨h1, h2, by omega, ?_⟩
  cases ds with
  | nil => rfl
  | cons d rest =>
    show ((d + d + 0) % 10 :: (addInto rest rest ((d + d + 0) / 10)).1).headD 0 % 2 = 0
    simp only [List.headD_cons]
    omega

theorem addDigits_one (ds : List Nat) (hne : ds ≠ []) (hd : ∀ d ∈ ds, d < 10)
    (hhead : ds.headD 0 % 2 = 0) :
    (addDigits ds [1]).length = ds.length ∧
    (∀ d ∈ addDigits ds [1], d < 10) ∧
    Nat.ofDigits 10 (addDigits ds [1]) = Nat.ofDigits 10 ds + 1 := by
  rcases ds with _ | ⟨d, rest⟩
  · exact absurd rfl hne
  · have hd0 : d < 10 := hd d (List.mem_cons_self _ _)
    have heven : d % 2 = 0 := by simpa using hhead
    have hall : addDigits (d :: rest) [1] = (d + 1) :: rest := by
      show carryLoop ((d :: rest).length + 1) ((1 + d + 0) % 10 :: rest) 1
          ((1 + d + 0) / 10) = (d + 1) :: rest
      have hm : (1 + d + 0) % 10 = d + 1 := by omega
      have hc : (1 + d + 0) / 10 = 0 := by omega
      rw [hm, hc]
      simp [carryLoop]
    rw [hall]
    refine ⟨rfl, ?_, ?_⟩
    · intro u hu
      rcases List.mem_cons.mp hu with h | h
      · omega
      · exact hd u (List.mem_cons_of_mem _ h)
    · rw [Nat.ofDigits_cons, Nat.ofDigits_cons]
      omega

theorem toDecLoop_spec : ∀ (p : List Bool) (ds : List Nat),
    (∀ d ∈ ds, d < 10) →
    Nat.ofDigits 10 ds * 2 ^ p.length + bitsValMsb p < 10 ^ ds.length →
    (toDecLoop p ds).length = ds.length ∧
    (∀ d ∈ toDecLoop p ds, d < 10) ∧
    Nat.ofDigits 10 (toDecLoop p ds)
      = Nat.ofDigits 10 ds * 2 ^ p.length + bitsValMsb p
  | [], ds, hd, _ => by
    refine ⟨rfl, hd, ?_⟩
    show Nat.ofDigits 10 ds = Nat.ofDigits 10 ds * 2 ^ 0 + bitsValMsb []
    simp [bitsValMsb]
  | b :: rest, ds, hd, hfit => by
    have hlen : (b :: rest).length = rest.length + 1 := rfl
    have hdup : 2 * Nat.ofDigits 10 ds * 2 ^ rest.length
        = Nat.ofDigits 10 ds * 2 ^ (rest.length + 1) := by
      rw [pow_succ]; ring
    have hone : (1 : Nat) ≤ 2 ^ rest.length := Nat.one_le_two_pow
    have hfit2 : 2 * Nat.ofDigits 10 ds < 10 ^ ds.length := by
      have h0 : 2 * Nat.ofDigits 10 ds ≤ 2 * Nat.ofDigits 10 ds * 2 ^ rest.length :=
        Nat.le_mul_of_pos_right _ (Nat.two_pow_pos _)
      rw [hlen] at hfit
      omega
    obtain ⟨hdl, hdb, hdv, hdh⟩ := addDigits_double ds hd hfit2
    have hvcons : bitsValMsb (b :: rest) = b.toNat * 2 ^ rest.length + bitsValMsb rest :=
      rfl
    cases b with
    | false =>
      have hstep : toDecLoop (false :: rest) ds = toDecLoop rest (addDigits ds ds) :=
        rfl
      obtain ⟨ih1, ih2, ih3⟩ := toDecLoop_spec rest (addDigits ds ds) hdb (by
        rw [hdl, hdv]
        rw [hlen, hvcons] at hfit
        simp only [Bool.toNat_false, Nat.zero_mul, Nat.zero_add] at hfit
        omega)
      rw [hstep]
      refine ⟨by rw [ih1, hdl], ih2, ?_⟩
      rw [ih3, hdv, hdup, hvcons]
      simp only [Bool.toNat_false, Nat.zero_mul, Nat.zero_add, List.length_cons]
    | true =>
      have hdsne : ds ≠ [] := by
        intro hnil
        subst hnil
        rw [hlen, hvcons] at hfit
        simp only [Nat.ofDigits_nil, List.length_nil, pow_zero, Nat.zero_mul,
          Bool.toNat_true, Nat.one_mul, Nat.zero_add] at hfit
        omega
      have hdblne : addDigits ds ds ≠ [] := by
        intro hnil
        apply hdsne
        have := congrArg List.length hnil
        rw [hdl] at this
        exact List.eq_nil_of_length_eq_zero this
      obtain ⟨ho1, ho2, ho3⟩ := addDigits_one (addDigits ds ds) hdblne hdb hdh
      have hstep : toDecLoop (true :: rest) ds
          = toDecLoop rest (addDigits (addDigits ds ds) [1]) := rfl
      obtain ⟨ih1, ih2, ih3⟩ := toDecLoop_spec rest (addDigits (addDigits ds ds) [1])
        ho2 (by
          rw [ho1, hdl, ho3, hdv]
          rw [hlen, hvcons] at hfit
          simp only [Bool.toNat_true, Nat.one_mul] at hfit
          have hexp : (2 * Nat.ofDigits 10 ds + 1) * 2 ^ rest.length
              = Nat.ofDigits 10 ds * 2 ^ (rest.length + 1) + 2 ^ rest.length := by
            rw [pow_succ]; ring
          omega)
      rw [hstep]
      refine ⟨by rw [ih1, ho1, hdl], ih2, ?_⟩
      rw [ih3, ho3, hdv, hvcons]
      simp only [Bool.toNat_true, Nat.one_mul, List.length_cons]
      have hexp : (2 * Nat.ofDigits 10 ds + 1) * 2 ^ rest.length
          = Nat.ofDigits 10 ds * 2 ^ (rest.length + 1) + 2 ^ rest.length := by
        rw [pow_succ]; ring
      omega

theorem bitsValMsb_append_one (xs : List Bool) (b : Bool) :
    bitsValMsb (xs ++ [b]) = 2 * bitsValMsb xs + b.toNat := by
  induction xs with
  | nil => simp [bitsValMsb]
  | cons x xs ih =>
    show x.toNat * 2 ^ (xs ++ [b]).length + bitsValMsb (xs ++ [b]) = _
    rw [ih, List.length_append]
    show x.toNat * 2 ^ (xs.length + 1) + (2 * bitsValMsb xs + b.toNat)
      = 2 * (x.toNat * 2 ^ xs.length + bitsValMsb xs) + b.toNat
    rw [pow_succ]
    ring

theorem bitsValMsb_reverse (bs : List Bool) :
    bitsValMsb bs.reverse = bitsToNat bs := by
  induction bs with
  | nil => rfl
  | cons b bs ih =>
    rw [List.reverse_cons, bitsValMsb_append_one, ih]
    show 2 * bitsToNat bs + b.toNat = b.toNat + 2 * bitsToNat bs
    omega

theorem ofDigits_replicate_zero : ∀ n : Nat,
    Nat.ofDigits 10 (List.replicate n 0) = 0
  | 0 => rfl
  | n + 1 => by
    show Nat.ofDigits 10 ((0 : Nat) :: List.replicate n 0) = 0
    rw [Nat.ofDigits_cons, ofDigits_replicate_zero n]

/-- Stripping leading zeroes from a most-significant-first digit list yields
exactly the canonical decimal representation of its value. -/
theorem strip_leading_zeroes : ∀ (M : List Nat), (∀ d ∈ M, d < 10) →
    M.dropWhile (fun d => d = 0)
      = (Nat.digits 10 (Nat.ofDigits 10 M.reverse)).reverse
  | [], _ => by simp
  | d :: M, hd => by
    have hM : ∀ u ∈ M, u < 10 := fun u hu => hd u (List.mem_cons_of_mem _ hu)
    by_cases h0 : d = 0
    · subst h0
      have hdw : (((0 : Nat) :: M).dropWhile fun d => d = 0)
          = M.dropWhile (fun d => d = 0) := by
        simp [List.dropWhile]
      have hval : Nat.ofDigits 10 (((0 : Nat) :: M).reverse)
          = Nat.ofDigits 10 M.reverse := by
        rw [List.reverse_cons, Nat.ofDigits_append]
        simp [Nat.ofDigits_cons, Nat.ofDigits_nil]
      rw [hdw, hval]
      exact strip_leading_zeroes M hM
    · have hdw : ((d :: M).dropWhile fun d => d = 0) = d :: M := by
        rw [List.dropWhile_cons_of_neg]
        simpa using h0
      have hlast : ∀ h : (M.reverse ++ [d]) ≠ [],
          (M.reverse ++ [d]).getLast h ≠ 0 := by
        intro h
        rw [List.getLast_append]
        exact h0
      have hdig : Nat.digits 10 (Nat.ofDigits 10 (M.reverse ++ [d]))
          = M.reverse ++ [d] := by
        apply Nat.digits_ofDigits 10 (by norm_num)
        · intro u hu
          rcases List.mem_append.mp hu with h | h
          · exact hM u (List.mem_reverse.mp h)
          · have hud : u = d := List.mem_singleton.mp h
            rw [hud]
            exact hd d (List.mem_cons_self _ _)
        · exact hlast
      rw [hdw]
      rw [List.reverse_cons, hdig, List.reverse_append, List.reverse_reverse]
      rfl

/-- `to_unsigned_decimal_string` renders exactly the canonical decimal
representation of the unsigned value. -/
theorem to_unsigned_decimal_string_eq (x : FlexInt) :
    to_unsigned_decimal_string x
      = if x.toNat = 0 then ['0']
        else (Nat.digits 10 x.toNat).reverse.map digitChar := by
  have hrep : ∀ d ∈ List.replicate x.size (0 : Nat), d < 10 := by
    intro d hd
    rw [List.eq_of_mem_replicate hd]
    norm_num
  have hofrep := ofDigits_replicate_zero x.size
  have hmsb : bitsValMsb x.bits.reverse = x.toNat := bitsValMsb_reverse x.bits
  have hlenrev : x.bits.reverse.length = x.size := by
    rw [List.length_reverse]
    rfl
  have hbound : Nat.ofDigits 10 (List.replicate x.size (0 : Nat))
        * 2 ^ x.bits.reverse.length + bitsValMsb x.bits.reverse
      < 10 ^ (List.replicate x.size (0 : Nat)).length := by
    rw [hofrep, hmsb, List.length_replicate, Nat.zero_mul, Nat.zero_add]
    have h2 := toNat_lt x
    have h10 : (2 : Nat) ^ x.size ≤ 10 ^ x.size :=
      Nat.pow_le_pow_left (by norm_num) _
    omega
  obtain ⟨hL, hB, hV⟩ := toDecLoop_spec x.bits.reverse
    (List.replicate x.size 0) hrep hbound
  rw [hofrep, hmsb, Nat.zero_mul, Nat.zero_add] at hV
  have hstrip := strip_leading_zeroes
    (toDecLoop x.bits.reverse (List.replicate x.size 0)).reverse
    (by intro u hu; exact hB u (List.mem_reverse.mp hu))
  rw [List.reverse_reverse, hV] at hstrip
  show (let digits := toDecLoop x.bits.reverse (List.replicate x.size 0)
        let rendered := (digits.reverse.dropWhile (fun d => d = 0)).map digitChar
        if rendered.isEmpty then ['0'] else rendered) = _
  simp only [hstrip]
  by_cases hz : x.toNat = 0
  · simp [hz, Nat.digits_zero]
  · have hne : Nat.digits 10 x.toNat ≠ [] := by
      rw [Ne, Nat.digits_eq_nil_iff_eq_zero]
      exact hz
    have hrne : ((Nat.digits 10 x.toNat).reverse.map digitChar).isEmpty = false := by
      rw [List.isEmpty_eq_false_iff_exists_mem]
      rcases List.exists_mem_of_ne_nil _ hne with ⟨u, hu⟩
      exact ⟨digitChar u, List.mem_map_of_mem _ (List.mem_reverse.mpr hu)⟩
    rw [hrne]
    simp [hz]

/-! ## Claim C7: signed string parsing -/

/-- Any value that is not the largest possible negative can be negated
(no size hypothesis: the empty value counts as zero). -/
theorem negate_isSome_of_not_lpn (num : FlexInt)
    (hlpn : num.is_largest_possible_negative = false) :
    ∃ r, num.negate = some r := by
  rcases hbits : num.bits with _ | ⟨b, bs⟩
  · have hz : num.is_zero = true := by
      rw [is_zero, hbits]
      rfl
    exact ⟨num, by simp [negate, hlpn, hz]⟩
  · have h1 : 1 ≤ num.size := by
      show 1 ≤ num.bits.length
      rw [hbits]
      simp
    obtain ⟨r, hr, -, -⟩ := (negate_spec num h1).2 hlpn
    exact ⟨r, hr⟩

/-- The overflow flag produced by `from_signed_string` on a minus-prefixed
input, given the unsigned parse of the magnitude: `false` when the
magnitude is exactly the minimal negative (the failed-negation branch
replaces the accumulated flag), and otherwise the sign-bit check OR-ed
with the unsigned parse's flag. -/
theorem from_signed_string_minus_flag (rest : List Char) (w : Nat)
    (f : List Char → Nat → Option (FlexInt × Bool)) (num : FlexInt) (over0 : Bool)
    (hf : f rest w = some (num, over0)) :
    (from_signed_string ('-' :: rest) w f).map Prod.snd
      = some (if num.is_largest_possible_negative then false
              else num.is_negative || over0) := by
  rcases hlpn : num.is_largest_possible_negative
  · obtain ⟨r, hr⟩ := negate_isSome_of_not_lpn num hlpn
    simp only [from_signed_string, hf, hlpn, hr, Bool.and_true, Bool.not_false,
      Bool.false_and, Bool.and_false, if_true, if_false, Option.map_some']
    cases hneg : num.is_negative <;> simp [hneg]
  · have hr : num.negate = none := by simp [negate, hlpn]
    simp [from_signed_string, hf, hlpn, hr]

/-- C7 (amended): for minus-prefixed inputs of the signed decimal and hex
entry points, the returned overflow flag is the magnitude's sign-bit check
OR-ed with the unsigned parse's overflow — EXCEPT when the magnitude is
exactly the minimal negative value, where the flag is `false` and any
overflow reported by the unsigned parse of the magnitude is discarded by
the failed-negation branch. -/
theorem claim_C7_signed_parse_overflow_amended
    (rest : List Char) (w : Nat) (num : FlexInt) (over0 : Bool) :
    (from_unsigned_decimal_string rest w = some (num, over0) →
      (from_signed_decimal_string ('-' :: rest) w).map Prod.snd
        = some (if num.is_largest_possible_negative then false
                else num.is_negative || over0)) ∧
    (from_unsigned_hex_string rest w = some (num, over0) →
      (from_signed_hex_string ('-' :: rest) w).map Prod.snd
        = some (if num.is_largest_possible_negative then false
                else num.is_negative || over0)) :=
  ⟨fun hf => from_signed_string_minus_flag rest w _ num over0 hf,
   fun hf => from_signed_string_minus_flag rest w _ num over0 hf⟩

/-- Counterexample to C7 as stated: at width 8 the unsigned parse of the
magnitude "384" reports overflow (384 mod 256 = 128), yet
`from_signed_decimal_string "-384"` returns that same minimal-negative
value with overflow = false — the sign-handling steps discard the
unsigned-parse overflow. -/
theorem claim_C7_counterexample :
    from_unsigned_decimal_string ['3', '8', '4'] 8
      = some (⟨[false, false, false, false, false, false, false, true]⟩, true) ∧
    from_signed_decimal_string ['-', '3', '8', '4'] 8
      = some (⟨[false, false, false, false, false, false, false, true]⟩, false) :=
  ⟨rfl, rfl⟩

/-- Witness for the amended C7 on the counterexample input "-384" at
width 8. -/
theorem claim_C7_signed_parse_overflow_amended_witness :
    (from_signed_decimal_string ['-', '3', '8', '4'] 8).map Prod.snd
      = some (if (⟨[false, false, false, false, false, false, false, true]⟩
                  : FlexInt).is_largest_possible_negative then false
              else (⟨[false, false, false, false, false, false, false, true]⟩
                  : FlexInt).is_negative || true) :=
  (claim_C7_signed_parse_overflow_amended ['3', '8', '4'] 8
    ⟨[false, false, false, false, false, false, false, true]⟩ true).1 (by rfl)

/-! ## Claim C5: decimal round trip -/

/-- `char::to_digit(_, 10)` inverts `char::from_digit(_, 16)` on the ten
decimal digits. -/
theorem decDigit_digitChar (d : Nat) (h : d < 10) :
    decDigit? (digitChar d) = some d := by
  interval_cases d <;> decide

/-- Cons step for the value of a most-significant-first digit list read via
`Nat.ofDigits` of its reversal. -/
theorem ofDigits_reverse_cons (d : Nat) (ds : List Nat) :
    Nat.ofDigits 10 (d :: ds).reverse
      = Nat.ofDigits 10 ds.reverse + 10 ^ ds.length * d := by
  rw [List.reverse_cons, Nat.ofDigits_append, List.length_reverse]
  simp [Nat.ofDigits_cons, Nat.ofDigits_nil]

/-- The `from_unsigned_decimal_string` loop on the digit characters of a
most-significant-first digit list accumulates the exact value and keeps the
overflow flag unchanged, whenever the final value fits in the width. -/
theorem fromDecLoop_spec (w : Nat) :
    ∀ (ds : List Nat) (acc : FlexInt) (ov : Bool),
      (∀ d ∈ ds, d < 10) → acc.size = w →
      acc.toNat * 10 ^ ds.length + Nat.ofDigits 10 ds.reverse < 2 ^ w →
      ∃ r, fromDecLoop w (ds.map digitChar) acc ov = some (r, ov) ∧
        r.size = w ∧
        r.toNat = acc.toNat * 10 ^ ds.length + Nat.ofDigits 10 ds.reverse
  | [], acc, ov, _, hsz, _ => by
    refine ⟨acc, rfl, hsz, ?_⟩
    simp [Nat.ofDigits_nil]
  | d :: ds, acc, ov, hds, hsz, hbound => by
    have hd : d < 10 := hds d (List.mem_cons_self _ _)
    have hds2 : ∀ u ∈ ds, u < 10 := fun u hu => hds u (List.mem_cons_of_mem _ hu)
    have hP : 1 ≤ 10 ^ ds.length := Nat.one_le_pow _ _ (by norm_num)
    have hexp : acc.toNat * 10 ^ (d :: ds).length
        = acc.toNat * 10 * 10 ^ ds.length := by
      rw [List.length_cons, pow_succ]
      ring
    have hcons := ofDigits_reverse_cons d ds
    have hbound2 : (acc.toNat * 10 + d) * 10 ^ ds.length
        + Nat.ofDigits 10 ds.reverse < 2 ^ w := by
      have he : (acc.toNat * 10 + d) * 10 ^ ds.length
          = acc.toNat * 10 * 10 ^ ds.length + 10 ^ ds.length * d := by ring
      rw [he]
      rw [hexp, hcons] at hbound
      omega
    have hsmall : acc.toNat * 10 + d < 2 ^ w := by
      have h1 : (acc.toNat * 10 + d) * 1 ≤ (acc.toNat * 10 + d) * 10 ^ ds.length :=
        mul_le_mul_left' hP _
      rw [Nat.mul_one] at h1
      omega
    have hm := multiply_unsigned_spec acc (from_int 10 w)
      (by rw [hsz, from_int_size])
    have hten : (from_int 10 w).toNat = 10 % 2 ^ w := from_int_toNat w 10
    have hmlt : acc.toNat * (10 % 2 ^ w) ≤ acc.toNat * 10 :=
      mul_le_mul_left' (Nat.mod_le 10 (2 ^ w)) acc.toNat
    have hmval : (acc.multiply (from_int 10 w) false).1.toNat
        = acc.toNat * 10 := by
      rw [hm.2.1, hten, hsz]
      have h1 : acc.toNat * (10 % 2 ^ w) % 2 ^ w = acc.toNat * 10 % 2 ^ w := by
        conv_lhs => rw [Nat.mul_mod]
        conv_rhs => rw [Nat.mul_mod]
        rw [Nat.mod_mod_of_dvd 10 (dvd_refl (2 ^ w))]
      rw [h1]
      exact Nat.mod_eq_of_lt (by omega)
    have hmflag : (acc.multiply (from_int 10 w) false).2 = false := by
      rw [hm.2.2, hten, hsz, decide_eq_false_iff_not]
      omega
    have hmsz : (acc.multiply (from_int 10 w) false).1.size = w := by
      rw [hm.1, hsz]
    have hdval : (from_int d w).toNat = d := by
      rw [from_int_toNat]
      exact Nat.mod_eq_of_lt (by omega)
    have ha := add_fst_toNat (acc.multiply (from_int 10 w) false).1
      (from_int d w) false (by rw [hmsz, from_int_size])
    have haflag := add_snd_unsigned (acc.multiply (from_int 10 w) false).1
      (from_int d w) (by rw [hmsz, from_int_size])
    have haval : ((acc.multiply (from_int 10 w) false).1.add
        (from_int d w) false).1.toNat = acc.toNat * 10 + d := by
      rw [ha, hdval, hmval, hmsz]
      exact Nat.mod_eq_of_lt hsmall
    have hasz : ((acc.multiply (from_int 10 w) false).1.add
        (from_int d w) false).1.size = w := by
      rw [add_fst_size _ _ _ (by rw [hmsz, from_int_size]), hmsz]
    have haflag2 : ((acc.multiply (from_int 10 w) false).1.add
        (from_int d w) false).2 = false := by
      rw [haflag, hdval, hmval, hmsz, decide_eq_false_iff_not]
      omega
    obtain ⟨r, hr, hrsz, hrval⟩ := fromDecLoop_spec w ds
      ((acc.multiply (from_int 10 w) false).1.add (from_int d w) false).1 ov
      hds2 hasz (by rw [haval]; exact hbound2)
    have hstep : fromDecLoop w ((d :: ds).map digitChar) acc ov
        = fromDecLoop w (ds.map digitChar)
            ((acc.multiply (from_int 10 w) false).1.add (from_int d w) false).1
            ((ov || (acc.multiply (from_int 10 w) false).2)
              || ((acc.multiply (from_int 10 w) false).1.add
                    (from_int d w) false).2) := by
      simp only [List.map_cons, fromDecLoop, decDigit_digitChar d hd]
    refine ⟨r, ?_, hrsz, ?_⟩
    · rw [hstep, hmflag, haflag2, Bool.or_false, Bool.or_false]
      exact hr
    · rw [hrval, haval, hexp, hcons]
      ring

/-- C5: for every value of width at least 3, rendering as an unsigned
decimal string and re-parsing at the same width returns the original value
with overflow = false. -/
theorem claim_C5_decimal_round_trip (x : FlexInt) (hw : 3 ≤ x.size) :
    from_unsigned_decimal_string (to_unsigned_decimal_string x) x.size
      = some (x, false) := by
  rw [to_unsigned_decimal_string_eq]
  by_cases hz : x.toNat = 0
  · rw [if_pos hz]
    obtain ⟨r, hr, hrsz, hrval⟩ := fromDecLoop_spec x.size [0] (new x.size) false
      (by intro d hd; rw [List.mem_singleton.mp hd]; norm_num)
      (new_size x.size)
      (by
        rw [new_toNat, Nat.zero_mul, Nat.zero_add]
        have h0 : Nat.ofDigits 10 (([0] : List Nat)).reverse = 0 := by decide
        rw [h0]
        exact Nat.two_pow_pos x.size)
    have hrx : r = x := toNat_inj hrsz (by
      rw [hrval, new_toNat, hz]
      decide)
    have hmap : (['0'] : List Char) = [0].map digitChar := by decide
    show fromDecLoop x.size ['0'] (new x.size) false = some (x, false)
    rw [hmap, hr, hrx]
  · rw [if_neg hz]
    obtain ⟨r, hr, hrsz, hrval⟩ := fromDecLoop_spec x.size
      (Nat.digits 10 x.toNat).reverse (new x.size) false
      (fun d hd => Nat.digits_lt_base (by norm_num) (List.mem_reverse.mp hd))
      (new_size x.size)
      (by
        rw [new_toNat, Nat.zero_mul, Nat.zero_add, List.reverse_reverse,
          Nat.ofDigits_digits]
        exact toNat_lt x)
    have hrx : r = x := toNat_inj hrsz (by
      rw [hrval, new_toNat, Nat.zero_mul, Nat.zero_add, List.reverse_reverse,
        Nat.ofDigits_digits])
    show fromDecLoop x.size ((Nat.digits 10 x.toNat).reverse.map digitChar)
        (new x.size) false = some (x, false)
    rw [hr, hrx]

/-- Witness for C5 at the 8-bit value 200. -/
theorem claim_C5_decimal_round_trip_witness :
    3 ≤ (from_int 200 8).size ∧
    from_unsigned_decimal_string
        (to_unsigned_decimal_string (from_int 200 8)) (from_int 200 8).size
      = some (from_int 200 8, false) :=
  ⟨by decide, claim_C5_decimal_round_trip (from_int 200 8) (by decide)⟩

end FlexInt

/-! ## Claims C8 and C10: parser and evaluator -/

/-- C8: end-to-end, with an 8-bit unsigned configuration the glyph sequence
for "255+1" parses successfully, and evaluating the resulting AST yields
the 8-bit zero value with overflow = true (the evaluator combines each
child's overflow with the operation's overflow by logical OR, as the
definition of `evaluate` shows). -/
theorem claim_C8_e2e_255_plus_1 :
    (parseGlyphs
        [Glyph.Digit 2, Glyph.Digit 5, Glyph.Digit 5, Glyph.Add, Glyph.Digit 1]
        [] ⟨⟨8, false⟩⟩).map (fun n => evaluate n ⟨⟨8, false⟩⟩)
      = Except.ok ⟨FlexInt.new 8, true⟩ := rfl

/-- C10: parsing an empty glyph sequence always succeeds, for every
configuration and variable store, yielding a single `Number` node holding
the zero of the configured bit width, whose span has start 0 and
length 0. -/
theorem claim_C10_empty_parse (vars : List (List Glyph)) (cfg : Configuration) :
    parseGlyphs [] vars cfg
      = Except.ok (Node.Number ⟨0, 0⟩ (FlexInt.new cfg.data_type.bits)) := rfl

end DeltaRadix
